import Mathlib

/-!
Verification development for the Wren VS Code extension's language-service
core (symbol index, import-graph aggregation, scope-aware type resolution,
signature-context analysis).  TypeScript sources are shallowly embedded as
executable Lean definitions; theorems below settle the specified claims.

Modelling conventions used throughout:
* JavaScript strings are modelled by Lean `String` / `List Char`; the JS
  string primitives used by the source (`trim`, `startsWith`, `endsWith`,
  `replace(/\\/g,'/')`) are re-implemented character-exactly below.
* `vscode.Range`/`positionAt` pairs are kept as raw character offsets
  (`start`, `stop`), since the source always builds ranges from offsets.
* JS `Map` is modelled as an insertion-ordered association list with
  replace-on-set semantics (`jsSet`/`jsGet`), JS `Set` by a list with an
  insertion-order dedup.
* Node's `path.normalize` (posix flavour) is modelled by `pathNormalize`
  below, following its documented segment algorithm; trailing-separator
  preservation is irrelevant here because every string this program
  normalizes ends in ".wren".
-/

namespace Wren

/-! ## JS string primitives over `List Char` -/

/-- Whitespace as trimmed by JS `String.prototype.trim` (ASCII portion). -/
def wsChar (c : Char) : Bool :=
  c = ' ' || c = '\t' || c = '\n' || c = '\r' || c = '\x0b' || c = '\x0c'

/-- JS `trim`: drop whitespace from both ends. -/
def jsTrimChars (l : List Char) : List Char :=
  ((l.dropWhile wsChar).reverse.dropWhile wsChar).reverse

def jsTrim (s : String) : String := ⟨jsTrimChars s.data⟩

/-- JS `endsWith` on char lists. -/
def chEndsWith (l suf : List Char) : Bool := suf.isSuffixOf l

/-- JS `startsWith` on char lists. -/
def chStartsWith (l pre : List Char) : Bool := pre.isPrefixOf l

/-- JS `replace(/\\/g, '/')`: rewrite every backslash to a forward slash. -/
def backslashToSlash (l : List Char) : List Char :=
  l.map (fun c => if c = '\\' then '/' else c)

/-! ## Node `path.normalize` (posix), segment model -/

/-- Split a path on `'/'`; always returns at least one (possibly empty)
segment, exactly like JS `split('/')`. -/
def splitSlash : List Char → List (List Char)
  | [] => [[]]
  | c :: rest =>
    match splitSlash rest with
    | [] => [[]]
    | seg :: segs => if c = '/' then [] :: seg :: segs else (c :: seg) :: segs

/-- Join segments with `'/'`, the inverse of `splitSlash`. -/
def intercalateSlash : List (List Char) → List Char
  | [] => []
  | [seg] => seg
  | seg :: rest => seg ++ '/' :: intercalateSlash rest

def dotSeg : List Char := ['.']
def dotDotSeg : List Char := ['.', '.']

/-- Core of `path.normalize`: process segments left to right keeping a
stack (head = most recent). `""` and `"."` are dropped; `".."` pops a
normal segment, is dropped at the root of an absolute path, and is kept
for a relative path. -/
def normStack (abs : Bool) : List (List Char) → List (List Char) → List (List Char)
  | stack, [] => stack
  | stack, seg :: rest =>
    if seg = ([] : List Char) ∨ seg = dotSeg then normStack abs stack rest
    else if seg = dotDotSeg then
      match stack with
      | top :: stk =>
        if top = dotDotSeg then normStack abs (seg :: top :: stk) rest
        else normStack abs stk rest
      | [] => if abs then normStack abs [] rest else normStack abs [dotDotSeg] rest
    else normStack abs (seg :: stack) rest

/-- Assemble the normalized path from the processed segment list (in
source order): re-join with `'/'`, restore the absolute marker, and return
`"."` for an empty relative result. -/
def assembleNorm (abs : Bool) (stackRev : List (List Char)) : List Char :=
  let joined := intercalateSlash stackRev
  let core := if abs then '/' :: joined else joined
  if core.isEmpty then ['.'] else core

/-- Model of posix `path.normalize` for separator-terminated-free inputs. -/
def pathNormChars (l : List Char) : List Char :=
  let abs := chStartsWith l ['/']
  assembleNorm abs ((normStack abs [] (splitSlash l)).reverse)

def pathNormalize (s : String) : String := ⟨pathNormChars s.data⟩

/-! ## `normalizeImportPath` (astIndex.ts) -/

def wrenExt : List Char := ['.', 'w', 'r', 'e', 'n']
def dotSlash : List Char := ['.', '/']
def dotDotSlash : List Char := ['.', '.', '/']

/-- Step 2 of `normalizeImportPath`: append ".wren" when missing. -/
def extWren (l : List Char) : List Char :=
  if chEndsWith l wrenExt then l else l ++ wrenExt

/-- Step 3 of `normalizeImportPath`: force a "./" relative marker unless
the path is already "./"- or "../"-relative. -/
def relMark (l : List Char) : List Char :=
  if chStartsWith l dotSlash ∨ chStartsWith l dotDotSlash then l
  else '.' :: '/' :: l

/-- `normalizeImportPath` from `astIndex.ts`: trim, append the extension,
force the relative marker, turn backslashes into slashes, and run Node
`path.normalize`. -/
def normalizeChars (value : List Char) : List Char :=
  pathNormChars (backslashToSlash (relMark (extWren (jsTrimChars value))))

def normalizeImportPath (value : String) : String := ⟨normalizeChars value.data⟩

/-! ## JS `Map` / `Set` models -/

/-- Insertion-ordered association list lookup (JS `Map.get`): the first
entry with the key. -/
def jsGet {α : Type} : List (String × α) → String → Option α
  | [], _ => none
  | kv :: rest, k => if kv.1 = k then some kv.2 else jsGet rest k

/-- JS `Map.set`: update the entry in place when the key exists (keeping
its original position in iteration order), otherwise append. -/
def jsSet {α : Type} : List (String × α) → String → α → List (String × α)
  | [], k, v => [(k, v)]
  | kv :: rest, k, v =>
    if kv.1 = k then (k, v) :: rest else kv :: jsSet rest k v

/-- JS `Set` construction order: keep the first occurrence of each element. -/
def insertionDedup (l : List String) : List String :=
  (l.foldl (fun acc s => if s ∈ acc then acc else acc ++ [s]) [])


/-! ## Symbol data model (`types.ts`) -/

/-- Offset-based model of `vscode.Range` (start/stop character offsets). -/
structure VRange where
  start : Nat
  stop : Nat
deriving DecidableEq

/-- Model of `vscode.Uri`: only `fsPath` is consumed by the service. -/
structure Uri where
  fsPath : String
deriving DecidableEq

structure WrenMethodSymbol where
  name : String
  params : List String
  isStatic : Bool
  isConstructor : Bool
  range : VRange
  detail : String
  className : String
deriving DecidableEq

structure WrenFieldSymbol where
  name : String
  range : VRange
  isStatic : Bool
deriving DecidableEq

structure WrenClassSymbol where
  name : String
  range : VRange
  selectionRange : VRange
  methods : List WrenMethodSymbol
  staticMethods : List WrenMethodSymbol
  fields : List WrenFieldSymbol
deriving DecidableEq

structure WrenImportSymbol where
  moduleName : String
  path : String
  range : VRange
  -- source field name: `variables` (a reserved word in Lean), shortened here
  vars : Option (List String)
deriving DecidableEq

structure WrenFileIndex where
  uri : Uri
  version : Nat
  classes : List WrenClassSymbol
  imports : List WrenImportSymbol
  parsedAt : Nat
deriving DecidableEq

/-! ## Built-in registry (`builtins.ts`) -/

/-- Zero-length range used for built-in symbols (`vscode.Range(0,0,0,0)`). -/
def BUILTIN_RANGE : VRange := ⟨0, 0⟩

/-- The `method` helper of `builtins.ts`. -/
def mkMethod (className name : String) (params : List String)
    (isStatic isConstructor : Bool) : WrenMethodSymbol :=
  let quals := (if isConstructor then ["construct"] else [])
    ++ (if isStatic then ["static"] else [])
  let qualifier := if quals.isEmpty then "" else String.intercalate " " quals ++ " "
  { name := name, params := params, isStatic := isStatic,
    isConstructor := isConstructor, range := BUILTIN_RANGE,
    detail := qualifier ++ className ++ "." ++ name ++ "("
      ++ String.intercalate ", " params ++ ")",
    className := className }

/-- The `cls` helper of `builtins.ts`. -/
def mkCls (name : String) (methods staticMethods : List WrenMethodSymbol) :
    WrenClassSymbol :=
  { name := name, range := BUILTIN_RANGE, selectionRange := BUILTIN_RANGE,
    fields := [], methods := methods, staticMethods := staticMethods }

def OBJECT_CLASS : WrenClassSymbol := mkCls "Object"
  [mkMethod "Object" "!" [] false false,
   mkMethod "Object" "==" ["other"] false false,
   mkMethod "Object" "!=" ["other"] false false,
   mkMethod "Object" "is" ["class"] false false,
   mkMethod "Object" "toString" [] false false,
   mkMethod "Object" "type" [] false false]
  [mkMethod "Object" "same" ["a", "b"] true false]

def CLASS_CLASS : WrenClassSymbol := mkCls "Class"
  [mkMethod "Class" "name" [] false false,
   mkMethod "Class" "supertype" [] false false,
   mkMethod "Class" "toString" [] false false,
   mkMethod "Class" "attributes" [] false false]
  []

def BOOL_CLASS : WrenClassSymbol := mkCls "Bool"
  [mkMethod "Bool" "!" [] false false,
   mkMethod "Bool" "toString" [] false false]
  []

def NULL_CLASS : WrenClassSymbol := mkCls "Null"
  [mkMethod "Null" "!" [] false false,
   mkMethod "Null" "toString" [] false false]
  []

def NUM_CLASS : WrenClassSymbol := mkCls "Num"
  [mkMethod "Num" "-" ["other"] false false,
   mkMethod "Num" "+" ["other"] false false,
   mkMethod "Num" "*" ["other"] false false,
   mkMethod "Num" "/" ["other"] false false,
   mkMethod "Num" "%" ["other"] false false,
   mkMethod "Num" "<" ["other"] false false,
   mkMethod "Num" ">" ["other"] false false,
   mkMethod "Num" "<=" ["other"] false false,
   mkMethod "Num" ">=" ["other"] false false,
   mkMethod "Num" "==" ["other"] false false,
   mkMethod "Num" "!=" ["other"] false false,
   mkMethod "Num" "&" ["other"] false false,
   mkMethod "Num" "|" ["other"] false false,
   mkMethod "Num" "^" ["other"] false false,
   mkMethod "Num" "<<" ["other"] false false,
   mkMethod "Num" ">>" ["other"] false false,
   mkMethod "Num" "~" [] false false,
   mkMethod "Num" ".." ["other"] false false,
   mkMethod "Num" "..." ["other"] false false,
   mkMethod "Num" "-" [] false false,
   mkMethod "Num" "abs" [] false false,
   mkMethod "Num" "acos" [] false false,
   mkMethod "Num" "asin" [] false false,
   mkMethod "Num" "atan" [] false false,
   mkMethod "Num" "atan" ["x"] false false,
   mkMethod "Num" "cbrt" [] false false,
   mkMethod "Num" "ceil" [] false false,
   mkMethod "Num" "cos" [] false false,
   mkMethod "Num" "floor" [] false false,
   mkMethod "Num" "round" [] false false,
   mkMethod "Num" "sin" [] false false,
   mkMethod "Num" "sqrt" [] false false,
   mkMethod "Num" "tan" [] false false,
   mkMethod "Num" "log" [] false false,
   mkMethod "Num" "log2" [] false false,
   mkMethod "Num" "exp" [] false false,
   mkMethod "Num" "pow" ["exponent"] false false,
   mkMethod "Num" "fraction" [] false false,
   mkMethod "Num" "truncate" [] false false,
   mkMethod "Num" "sign" [] false false,
   mkMethod "Num" "isInteger" [] false false,
   mkMethod "Num" "isNan" [] false false,
   mkMethod "Num" "isInfinity" [] false false,
   mkMethod "Num" "min" ["other"] false false,
   mkMethod "Num" "max" ["other"] false false,
   mkMethod "Num" "clamp" ["min", "max"] false false,
   mkMethod "Num" "toString" [] false false]
  [mkMethod "Num" "fromString" ["value"] true false,
   mkMethod "Num" "infinity" [] true false,
   mkMethod "Num" "nan" [] true false,
   mkMethod "Num" "pi" [] true false,
   mkMethod "Num" "tau" [] true false,
   mkMethod "Num" "largest" [] true false,
   mkMethod "Num" "smallest" [] true false,
   mkMethod "Num" "maxSafeInteger" [] true false,
   mkMethod "Num" "minSafeInteger" [] true false]

def SEQUENCE_CLASS : WrenClassSymbol := mkCls "Sequence"
  [mkMethod "Sequence" "all" ["f"] false false,
   mkMethod "Sequence" "any" ["f"] false false,
   mkMethod "Sequence" "contains" ["element"] false false,
   mkMethod "Sequence" "count" [] false false,
   mkMethod "Sequence" "count" ["f"] false false,
   mkMethod "Sequence" "each" ["f"] false false,
   mkMethod "Sequence" "isEmpty" [] false false,
   mkMethod "Sequence" "map" ["transformation"] false false,
   mkMethod "Sequence" "skip" ["count"] false false,
   mkMethod "Sequence" "take" ["count"] false false,
   mkMethod "Sequence" "where" ["predicate"] false false,
   mkMethod "Sequence" "reduce" ["f"] false false,
   mkMethod "Sequence" "reduce" ["acc", "f"] false false,
   mkMethod "Sequence" "join" [] false false,
   mkMethod "Sequence" "join" ["separator"] false false,
   mkMethod "Sequence" "toList" [] false false,
   mkMethod "Sequence" "toString" [] false false]
  []

def STRING_CLASS : WrenClassSymbol := mkCls "String"
  [mkMethod "String" "+" ["other"] false false,
   mkMethod "String" "*" ["count"] false false,
   mkMethod "String" "==" ["other"] false false,
   mkMethod "String" "!=" ["other"] false false,
   mkMethod "String" "[" ["index"] false false,
   mkMethod "String" "byteAt_" ["index"] false false,
   mkMethod "String" "byteCount_" [] false false,
   mkMethod "String" "codePointAt_" ["index"] false false,
   mkMethod "String" "contains" ["other"] false false,
   mkMethod "String" "count" [] false false,
   mkMethod "String" "endsWith" ["suffix"] false false,
   mkMethod "String" "indexOf" ["search"] false false,
   mkMethod "String" "indexOf" ["search", "start"] false false,
   mkMethod "String" "iterate" ["iterator"] false false,
   mkMethod "String" "iteratorValue" ["iterator"] false false,
   mkMethod "String" "replace" ["old", "new"] false false,
   mkMethod "String" "split" ["delimiter"] false false,
   mkMethod "String" "startsWith" ["prefix"] false false,
   mkMethod "String" "trim" [] false false,
   mkMethod "String" "trim" ["chars"] false false,
   mkMethod "String" "trimEnd" [] false false,
   mkMethod "String" "trimEnd" ["chars"] false false,
   mkMethod "String" "trimStart" [] false false,
   mkMethod "String" "trimStart" ["chars"] false false,
   mkMethod "String" "bytes" [] false false,
   mkMethod "String" "codePoints" [] false false,
   mkMethod "String" "toString" [] false false]
  [mkMethod "String" "fromCodePoint" ["codePoint"] true false,
   mkMethod "String" "fromByte" ["byte"] true false]

def LIST_CLASS : WrenClassSymbol := mkCls "List"
  [mkMethod "List" "[" ["index"] false false,
   mkMethod "List" "[]=" ["index", "value"] false false,
   mkMethod "List" "add" ["item"] false false,
   mkMethod "List" "addAll" ["other"] false false,
   mkMethod "List" "clear" [] false false,
   mkMethod "List" "count" [] false false,
   mkMethod "List" "indexOf" ["element"] false false,
   mkMethod "List" "insert" ["index", "item"] false false,
   mkMethod "List" "iterate" ["iterator"] false false,
   mkMethod "List" "iteratorValue" ["iterator"] false false,
   mkMethod "List" "remove" ["value"] false false,
   mkMethod "List" "removeAt" ["index"] false false,
   mkMethod "List" "sort" [] false false,
   mkMethod "List" "sort" ["comparator"] false false,
   mkMethod "List" "swap" ["indexA", "indexB"] false false,
   mkMethod "List" "+" ["other"] false false,
   mkMethod "List" "*" ["count"] false false,
   mkMethod "List" "toString" [] false false]
  [mkMethod "List" "new" [] false true,
   mkMethod "List" "filled" ["size", "element"] true false]

def MAP_CLASS : WrenClassSymbol := mkCls "Map"
  [mkMethod "Map" "[" ["key"] false false,
   mkMethod "Map" "[]=" ["key", "value"] false false,
   mkMethod "Map" "clear" [] false false,
   mkMethod "Map" "containsKey" ["key"] false false,
   mkMethod "Map" "count" [] false false,
   mkMethod "Map" "keys" [] false false,
   mkMethod "Map" "values" [] false false,
   mkMethod "Map" "iterate" ["iterator"] false false,
   mkMethod "Map" "remove" ["key"] false false,
   mkMethod "Map" "toString" [] false false]
  [mkMethod "Map" "new" [] false true]

def RANGE_CLASS : WrenClassSymbol := mkCls "Range"
  [mkMethod "Range" "from" [] false false,
   mkMethod "Range" "to" [] false false,
   mkMethod "Range" "min" [] false false,
   mkMethod "Range" "max" [] false false,
   mkMethod "Range" "isInclusive" [] false false,
   mkMethod "Range" "iterate" ["iterator"] false false,
   mkMethod "Range" "iteratorValue" ["iterator"] false false,
   mkMethod "Range" "toString" [] false false]
  []

def FIBER_CLASS : WrenClassSymbol := mkCls "Fiber"
  [mkMethod "Fiber" "call" [] false false,
   mkMethod "Fiber" "call" ["value"] false false,
   mkMethod "Fiber" "error" [] false false,
   mkMethod "Fiber" "isDone" [] false false,
   mkMethod "Fiber" "transfer" [] false false,
   mkMethod "Fiber" "transfer" ["value"] false false,
   mkMethod "Fiber" "transferError" ["error"] false false,
   mkMethod "Fiber" "try" [] false false,
   mkMethod "Fiber" "try" ["value"] false false]
  [mkMethod "Fiber" "new" ["fn"] false true,
   mkMethod "Fiber" "abort" ["error"] true false,
   mkMethod "Fiber" "current" [] true false,
   mkMethod "Fiber" "suspend" [] true false,
   mkMethod "Fiber" "yield" [] true false,
   mkMethod "Fiber" "yield" ["value"] true false]

def FN_CLASS : WrenClassSymbol := mkCls "Fn"
  [mkMethod "Fn" "arity" [] false false,
   mkMethod "Fn" "call" [] false false,
   mkMethod "Fn" "call" ["a"] false false,
   mkMethod "Fn" "call" ["a", "b"] false false,
   mkMethod "Fn" "call" ["a", "b", "c"] false false,
   mkMethod "Fn" "call" ["a", "b", "c", "d"] false false,
   mkMethod "Fn" "call" ["a", "b", "c", "d", "e"] false false,
   mkMethod "Fn" "call" ["a", "b", "c", "d", "e", "f"] false false,
   mkMethod "Fn" "call" ["a", "b", "c", "d", "e", "f", "g"] false false,
   mkMethod "Fn" "call" ["a", "b", "c", "d", "e", "f", "g", "h"] false false,
   mkMethod "Fn" "call" ["a", "b", "c", "d", "e", "f", "g", "h", "i"] false false,
   mkMethod "Fn" "call" ["a", "b", "c", "d", "e", "f", "g", "h", "i", "j"] false false,
   mkMethod "Fn" "call" ["a", "b", "c", "d", "e", "f", "g", "h", "i", "j", "k"] false false,
   mkMethod "Fn" "call" ["a", "b", "c", "d", "e", "f", "g", "h", "i", "j", "k", "l"] false false,
   mkMethod "Fn" "call" ["a", "b", "c", "d", "e", "f", "g", "h", "i", "j", "k", "l", "m"] false false,
   mkMethod "Fn" "call" ["a", "b", "c", "d", "e", "f", "g", "h", "i", "j", "k", "l", "m", "n"] false false,
   mkMethod "Fn" "call" ["a", "b", "c", "d", "e", "f", "g", "h", "i", "j", "k", "l", "m", "n", "o"] false false,
   mkMethod "Fn" "call" ["a", "b", "c", "d", "e", "f", "g", "h", "i", "j", "k", "l", "m", "n", "o", "p"] false false,
   mkMethod "Fn" "toString" [] false false]
  [mkMethod "Fn" "new" ["fn"] false true]

def SYSTEM_CLASS : WrenClassSymbol := mkCls "System"
  []
  [mkMethod "System" "print" [] true false,
   mkMethod "System" "print" ["object"] true false,
   mkMethod "System" "printAll" ["sequence"] true false,
   mkMethod "System" "write" ["object"] true false,
   mkMethod "System" "writeAll" ["sequence"] true false,
   mkMethod "System" "clock" [] true false,
   mkMethod "System" "gc" [] true false]

def MAP_ENTRY_CLASS : WrenClassSymbol := mkCls "MapEntry"
  [mkMethod "MapEntry" "key" [] false false,
   mkMethod "MapEntry" "value" [] false false,
   mkMethod "MapEntry" "toString" [] false false]
  []

def RANDOM_CLASS : WrenClassSymbol := mkCls "Random"
  [mkMethod "Random" "float" [] false false,
   mkMethod "Random" "float" ["end"] false false,
   mkMethod "Random" "float" ["start", "end"] false false,
   mkMethod "Random" "int" ["end"] false false,
   mkMethod "Random" "int" ["start", "end"] false false,
   mkMethod "Random" "sample" ["list"] false false,
   mkMethod "Random" "sample" ["list", "count"] false false,
   mkMethod "Random" "shuffle" ["list"] false false]
  [mkMethod "Random" "new" [] false true,
   mkMethod "Random" "new" ["seed"] false true]

def META_CLASS : WrenClassSymbol := mkCls "Meta"
  []
  [mkMethod "Meta" "getModuleVariables" ["module"] true false,
   mkMethod "Meta" "eval" ["source"] true false,
   mkMethod "Meta" "compileExpression" ["source"] true false,
   mkMethod "Meta" "compile" ["source"] true false]

/-- `CORE_CLASSES` from `builtins.ts`: always available, no import needed. -/
def CORE_CLASSES : List WrenClassSymbol :=
  [OBJECT_CLASS, CLASS_CLASS, BOOL_CLASS, NULL_CLASS, NUM_CLASS,
   SEQUENCE_CLASS, STRING_CLASS, LIST_CLASS, MAP_CLASS, RANGE_CLASS,
   FIBER_CLASS, FN_CLASS, SYSTEM_CLASS, MAP_ENTRY_CLASS]

/-- `getBuiltinClasses` from `builtins.ts` (`BUILTIN_MODULES` record lookup). -/
def getBuiltinClasses (moduleName : String) : Option (List WrenClassSymbol) :=
  if moduleName = "random" then some [RANDOM_CLASS]
  else if moduleName = "meta" then some [META_CLASS]
  else none

/-- `isBuiltinModule` from `astIndex.ts` (`BUILTIN_MODULES` set membership). -/
def isBuiltinModule (importPath : String) : Bool :=
  importPath = "meta" || importPath = "random"


/-! ## Analyzer AST (external `wren-analyzer` boundary)

Modelled from the spec: the external analyzer is a black box
`analyze(source, path) -> (module, diagnostics)` (spec section 6); its
`ModuleAst` carries class declarations (name, optional foreign marker,
method list, brace spans), import declarations (path token, optional
selective-name list) and variable declarations (name token, optional
type annotation, optional initializer expression), plus the nested
statement/expression kinds (block, if, while, for,
call-with-block-argument) consumed by scope resolution.  Statement lists
embed expression nodes directly (a TS union type), which is how a
statement's `kind` can be `'CallExpr'`; the `exprStmt` constructor below
is the Lean-side injection of `Expr` into `Stmt`, not a separate node
kind.  Wren operators are methods, so an operator application such as
`1 + 2` or `1..10` parses as a `CallExpr` whose callee name is the
operator and whose receiver is the left operand. -/

inductive TokType where
  | rightBracket
  | plain
deriving DecidableEq

structure Token where
  text : String
  start : Nat
  length : Nat
  type : TokType
deriving DecidableEq

/-- A plain (non-bracket) token, the common case. -/
def tok (text : String) (start length : Nat) : Token :=
  ⟨text, start, length, .plain⟩

/-- Source type: `TypeAnnotation` (name shortened for Lean). -/
structure TypeAnnot where
  name : Token
deriving DecidableEq

/-- Source type: `Parameter`; field `typeAnnot` is source `typeAnnotation`. -/
structure Param where
  name : Token
  typeAnnot : Option TypeAnnot
deriving DecidableEq

mutual

inductive Expr where
  | numExpr (tk : Token)
  | stringExpr (tk : Token)
  | interpolationExpr (tk : Token)
  | boolExpr (tk : Token)
  | nullExpr (tk : Token)
  | listExpr (elements : List Expr)
  | mapExpr (entries : List Expr)
  | fieldExpr (name : Token)
  | staticFieldExpr (name : Token)
  | callExpr (receiver : Option Expr) (name : Token)
      (arguments : Option (List Expr)) (blockArgument : Option Body)
  | groupingExpr (expression : Expr)

inductive Stmt where
  /-- `VarStmt`: fields `typeAnnot`/`init` are source
  `typeAnnotation`/`initializer`. -/
  | varStmt (name : Token) (typeAnnot : Option TypeAnnot) (init : Option Expr)
  | blockStmt (statements : List Stmt)
  | ifStmt (condition : Expr) (thenBranch : Stmt) (elseBranch : Option Stmt)
  | whileStmt (condition : Expr) (body : Stmt)
  /-- `ForStmt`: `loopVar` is source field `variable`. -/
  | forStmt (loopVar : Token) (typeAnnot : Option TypeAnnot)
      (iterable : Expr) (body : Stmt)
  | classStmt (name : Token) (foreignKeyword : Option Token)
      (classKeyword leftBrace rightBrace : Token) (methods : List Method)
  | importStmt (path : Token) (vars : Option (List Token))
  | returnStmt (value : Option Expr)
  | exprStmt (expr : Expr)

inductive Method where
  | mk (name : Token) (staticKeyword constructKeyword foreignKeyword : Option Token)
      (isSetter : Bool) (parameters subscriptParameters : Option (List Param))
      (body : Option Body)

inductive Body where
  | mk (parameters : Option (List Param)) (statements : Option (List Stmt))

end

structure Module where
  statements : List Stmt

def Method.name : Method → Token
  | .mk name _ _ _ _ _ _ _ => name

def Method.staticKeyword : Method → Option Token
  | .mk _ sk _ _ _ _ _ _ => sk

def Method.constructKeyword : Method → Option Token
  | .mk _ _ ck _ _ _ _ _ => ck

def Method.foreignKeyword : Method → Option Token
  | .mk _ _ _ fk _ _ _ _ => fk

def Method.isSetter : Method → Bool
  | .mk _ _ _ _ s _ _ _ => s

def Method.parameters : Method → Option (List Param)
  | .mk _ _ _ _ _ ps _ _ => ps

def Method.subscriptParameters : Method → Option (List Param)
  | .mk _ _ _ _ _ _ sps _ => sps

def Method.body : Method → Option Body
  | .mk _ _ _ _ _ _ _ b => b

def Body.parameters : Body → Option (List Param)
  | .mk ps _ => ps

def Body.statements : Body → Option (List Stmt)
  | .mk _ ss => ss

/-! ## Scope-aware type resolution (`astIndex.ts`, part with
`resolveTypeAtPosition`) -/

/-- JS regex test `/^[A-Z]/.test(s)`. -/
def startsUpper (s : String) : Bool :=
  match s.data with
  | [] => false
  | c :: _ => decide ('A' ≤ c ∧ c ≤ 'Z')

/-- `getReceiverClassName`: a direct class reference is a `CallExpr` with
no receiver, no arguments and a capitalized name. -/
def getReceiverClassName (e : Expr) : Option String :=
  match e with
  | .callExpr none name none _ => if startsUpper name.text then some name.text else none
  | _ => none

/-- `inferExprType`: infer a type name from an initializer's node kind. -/
def inferExprType : Expr → Option String
  | .numExpr _ => some "Num"
  | .stringExpr _ => some "String"
  | .interpolationExpr _ => some "String"
  | .boolExpr _ => some "Bool"
  | .nullExpr _ => some "Null"
  | .listExpr _ => some "List"
  | .mapExpr _ => some "Map"
  | .callExpr receiver name _ _ =>
    match receiver with
    | some r =>
      if name.text = "new" then
        match getReceiverClassName r with
        | some n => some n
        | none => none
      else none
    | none => none
  | .groupingExpr e => inferExprType e
  | .fieldExpr _ => none
  | .staticFieldExpr _ => none

/-- `resolveVarType` applied to a `VarStmt`'s annotation and initializer:
an explicit annotation wins, otherwise infer from the initializer. -/
def resolveVarType (typeAnnot : Option TypeAnnot) (init : Option Expr) :
    Option String :=
  match typeAnnot with
  | some t => some t.name.text
  | none =>
    match init with
    | some e => inferExprType e
    | none => none

/-- Parameter collection loops of `collectFromMethod`/`collectFromBody`:
record a binding for every parameter carrying a type annotation. -/
def collectParams (params : Option (List Param))
    (locals : List (String × String)) : List (String × String) :=
  match params with
  | none => locals
  | some ps =>
    ps.foldl (fun acc p =>
      match p.typeAnnot with
      | some t => jsSet acc p.name.text t.name.text
      | none => acc) locals

mutual

def collectFromMethod (m : Method) (offset : Nat)
    (locals : List (String × String)) : List (String × String) :=
  match m with
  | .mk name sk ck fk _ ps sps body =>
    match body with
    | none => locals
    | some b =>
      let methodStart := ((fk.map Token.start).orElse
        (fun _ => (sk.map Token.start).orElse
          (fun _ => ck.map Token.start))).getD name.start
      if offset < methodStart then locals
      else collectFromBody b offset (collectParams sps (collectParams ps locals))

def collectFromBody (b : Body) (offset : Nat)
    (locals : List (String × String)) : List (String × String) :=
  match b with
  | .mk ps ss =>
    let locals := collectParams ps locals
    match ss with
    | none => locals
    | some stmts => collectFromStatements stmts offset locals
termination_by structural b

def collectFromStatements (stmts : List Stmt) (offset : Nat)
    (locals : List (String × String)) : List (String × String) :=
  match stmts with
  | [] => locals
  | s :: rest => collectFromStatements rest offset (collectFromStmt s offset locals)
termination_by structural stmts

def collectFromStmt (s : Stmt) (offset : Nat)
    (locals : List (String × String)) : List (String × String) :=
  match s with
  | .varStmt name annot init =>
    if name.start < offset then
      match resolveVarType annot init with
      | some t => jsSet locals name.text t
      | none => locals
    else locals
  | .blockStmt ss => collectFromStatements ss offset locals
  | .ifStmt _ thenB elseB =>
    let l := collectFromStmt thenB offset locals
    match elseB with
    | some e => collectFromStmt e offset l
    | none => l
  | .whileStmt _ b => collectFromStmt b offset locals
  | .forStmt v annot _ b =>
    let l :=
      if v.start < offset then
        match annot with
        | some t => jsSet locals v.text t.name.text
        | none => locals
      else locals
    collectFromStmt b offset l
  -- Default branch of the source switch: the statement node itself is
  -- handed to `collectFromExprBlockArgs`.  Under the union representation a
  -- statement-position expression IS the expression node, so unwrap it;
  -- the remaining statement kinds have no `'CallExpr'` kind and are
  -- returned unchanged.
  | .exprStmt e => collectFromExprBlockArgs e offset locals
  | .classStmt _ _ _ _ _ _ => locals
  | .importStmt _ _ => locals
  | .returnStmt _ => locals
termination_by structural s

/-- `collectFromExprBlockArgs`: only a call expression
(`expr.kind === 'CallExpr'`) with a block argument is walked. -/
def collectFromExprBlockArgs (e : Expr) (offset : Nat)
    (locals : List (String × String)) : List (String × String) :=
  match e with
  | .callExpr _ _ _ (some blk) => collectFromBody blk offset locals
  | _ => locals
termination_by structural e

end

structure TypeResolution where
  locals : List (String × String)
  enclosingClass : Option String
deriving DecidableEq

/-- Top-level statement walk of `resolveTypeAtPosition`: on the first class
whose span contains the offset, walk all of its methods and stop; otherwise
collect module-level variable declarations that start before the offset. -/
def resolveTopWalk (stmts : List Stmt) (offset : Nat)
    (locals : List (String × String)) : TypeResolution :=
  match stmts with
  | [] => ⟨locals, none⟩
  | s :: rest =>
    match s with
    | .classStmt name fk classK _ rb methods =>
      let classStart := (fk.map Token.start).getD classK.start
      let classEnd := rb.start + rb.length
      if classStart ≤ offset ∧ offset ≤ classEnd then
        ⟨methods.foldl (fun acc m => collectFromMethod m offset acc) locals,
         some name.text⟩
      else resolveTopWalk rest offset locals
    | .varStmt name annot init =>
      if name.start < offset then
        match resolveVarType annot init with
        | some t => resolveTopWalk rest offset (jsSet locals name.text t)
        | none => resolveTopWalk rest offset locals
      else resolveTopWalk rest offset locals
    | _ => resolveTopWalk rest offset locals

def resolveTypeAtPosition (m : Module) (offset : Nat) : TypeResolution :=
  resolveTopWalk m.statements offset []


/-! ## Field collection (`FieldCollector extends RecursiveVisitor`)

Modelled from the spec: `RecursiveVisitor` is the analyzer's base visitor
(external); it visits every child node recursively in syntactic order.
`FieldCollector` overrides the `FieldExpr`/`StaticFieldExpr` visits,
recording `(isStatic, name token)` occurrences; the maps keep the first
occurrence per name. -/

mutual

def fieldOccsExpr : Expr → List (Bool × Token)
  | .numExpr _ => []
  | .stringExpr _ => []
  | .interpolationExpr _ => []
  | .boolExpr _ => []
  | .nullExpr _ => []
  | .listExpr es => fieldOccsExprList es
  | .mapExpr es => fieldOccsExprList es
  | .fieldExpr name => [(false, name)]
  | .staticFieldExpr name => [(true, name)]
  | .callExpr recv _ args blk =>
    fieldOccsExprOpt recv ++ fieldOccsExprListOpt args ++ fieldOccsBodyOpt blk
  | .groupingExpr e => fieldOccsExpr e
termination_by structural e => e

def fieldOccsExprOpt : Option Expr → List (Bool × Token)
  | none => []
  | some e => fieldOccsExpr e
termination_by structural o => o

def fieldOccsExprList : List Expr → List (Bool × Token)
  | [] => []
  | e :: rest => fieldOccsExpr e ++ fieldOccsExprList rest
termination_by structural l => l

def fieldOccsExprListOpt : Option (List Expr) → List (Bool × Token)
  | none => []
  | some es => fieldOccsExprList es
termination_by structural o => o

def fieldOccsBody : Body → List (Bool × Token)
  | .mk _ none => []
  | .mk _ (some ss) => fieldOccsStmtList ss
termination_by structural b => b

def fieldOccsBodyOpt : Option Body → List (Bool × Token)
  | none => []
  | some b => fieldOccsBody b
termination_by structural o => o

def fieldOccsStmt : Stmt → List (Bool × Token)
  | .varStmt _ _ init => fieldOccsExprOpt init
  | .blockStmt ss => fieldOccsStmtList ss
  | .ifStmt cond thenB elseB =>
    fieldOccsExpr cond ++ fieldOccsStmt thenB ++ fieldOccsStmtOpt elseB
  | .whileStmt cond b => fieldOccsExpr cond ++ fieldOccsStmt b
  | .forStmt _ _ it b => fieldOccsExpr it ++ fieldOccsStmt b
  | .classStmt _ _ _ _ _ ms => fieldOccsMethodList ms
  | .importStmt _ _ => []
  | .returnStmt v => fieldOccsExprOpt v
  | .exprStmt e => fieldOccsExpr e
termination_by structural s => s

def fieldOccsStmtOpt : Option Stmt → List (Bool × Token)
  | none => []
  | some s => fieldOccsStmt s
termination_by structural o => o

def fieldOccsStmtList : List Stmt → List (Bool × Token)
  | [] => []
  | s :: rest => fieldOccsStmt s ++ fieldOccsStmtList rest
termination_by structural l => l

def fieldOccsMethodList : List Method → List (Bool × Token)
  | [] => []
  | .mk _ _ _ _ _ _ _ none :: rest => fieldOccsMethodList rest
  | .mk _ _ _ _ _ _ _ (some b) :: rest => fieldOccsBody b ++ fieldOccsMethodList rest
termination_by structural l => l

end

/-- First-occurrence-wins name dedup (JS `Map` guarded `set`). -/
def keepFirstTokens (toks : List Token) : List Token :=
  (toks.foldl (fun acc t =>
    if (acc.1.contains t.text) then acc else (acc.1 ++ [t.text], acc.2 ++ [t])
  ) (([] : List String), ([] : List Token))).2

/-- The `FieldCollector` run of `buildClassSymbol`: visit every method body
(shared collector across the class), then split instance/static fields,
each deduplicated by name keeping the first occurrence. -/
def fieldCollectorRun (methods : List Method) : List Token × List Token :=
  let occs := fieldOccsMethodList methods
  (keepFirstTokens (occs.filterMap (fun st => if st.1 then none else some st.2)),
   keepFirstTokens (occs.filterMap (fun st => if st.1 then some st.2 else none)))

/-! ## Symbol construction (`astIndex.ts`) -/

def tokenRange (t : Token) : VRange := ⟨t.start, t.start + t.length⟩

def buildSignatureLabel (className methodName : String) (params : List String)
    (isStatic isConstructor isForeign : Bool) : String :=
  let quals := (if isConstructor then ["construct"] else [])
    ++ (if isForeign then ["foreign"] else [])
    ++ (if isStatic then ["static"] else [])
  let qualifierBlock := if quals.isEmpty then "" else String.intercalate " " quals ++ " "
  if methodName.startsWith "[" then
    qualifierBlock ++ className ++ "." ++ methodName
  else
    qualifierBlock ++ className ++ "." ++ methodName ++ "("
      ++ String.intercalate ", " params ++ ")"

def buildMethodSymbol (className : String) (m : Method) : WrenMethodSymbol :=
  let isStatic := m.staticKeyword.isSome
  let isConstructor := m.constructKeyword.isSome
  let isForeign := m.foreignKeyword.isSome
  let isSubscript := m.name.type = TokType.rightBracket
  let namePair :=
    if isSubscript then
      let subParams := (m.subscriptParameters.getD []).map (fun p => p.name.text)
      if m.isSetter then
        let setterParams := (m.parameters.getD []).map (fun p => p.name.text)
        ("[" ++ String.intercalate ", " subParams ++ "]=", subParams ++ setterParams)
      else
        ("[" ++ String.intercalate ", " subParams ++ "]", subParams)
    else
      let params := (m.parameters.getD []).map (fun p => p.name.text)
      (if m.isSetter then m.name.text ++ "=" else m.name.text, params)
  let detail := buildSignatureLabel className namePair.1 namePair.2
    isStatic isConstructor isForeign
  let methodStart := ((m.foreignKeyword.map Token.start).orElse
    (fun _ => (m.staticKeyword.map Token.start).orElse
      (fun _ => m.constructKeyword.map Token.start))).getD m.name.start
  -- Both branches of the source use the name token's end as the method end
  -- (the analyzer body does not record its closing brace).
  let methodEnd := m.name.start + m.name.length
  { name := namePair.1, params := namePair.2, isStatic := isStatic,
    isConstructor := isConstructor, range := ⟨methodStart, methodEnd⟩,
    detail := detail, className := className }

def buildClassSymbol (cname : Token) (fk : Option Token)
    (classK lb rb : Token) (methods : List Method) : WrenClassSymbol :=
  let className := cname.text
  let classKeywordStart := (fk.map Token.start).getD classK.start
  let classEnd := rb.start + rb.length
  let syms := methods.map (buildMethodSymbol className)
  let fieldToks := fieldCollectorRun methods
  { name := className,
    range := ⟨classKeywordStart, classEnd⟩,
    selectionRange := ⟨classKeywordStart, lb.start⟩,
    methods := syms.filter (fun s => !s.isStatic),
    staticMethods := syms.filter (fun s => s.isStatic),
    fields := fieldToks.1.map (fun t => ⟨t.text, tokenRange t, false⟩)
      ++ fieldToks.2.map (fun t => ⟨t.text, tokenRange t, true⟩) }

/-! ## Diagnostics model and `analyzeDocument` -/

/-- Analyzer-side diagnostic severity (spec section 6 boundary). -/
inductive ASeverity where
  | error
  | warning
  | info
deriving DecidableEq

structure ASpan where
  start : Nat
  length : Nat
deriving DecidableEq

/-- Analyzer-side diagnostic (spec section 6 boundary). -/
structure ADiagnostic where
  severity : ASeverity
  code : String
  message : String
  span : ASpan
deriving DecidableEq

/-- Model of `vscode.DiagnosticSeverity`. -/
inductive VsSeverity where
  | error
  | warning
  | information
  | hint
deriving DecidableEq

/-- `SEVERITY_MAP` (total on analyzer severities; the source's
`?? Information` default is unreachable for them). -/
def SEVERITY_MAP : ASeverity → VsSeverity
  | .error => .error
  | .warning => .warning
  | .info => .information

/-- Model of `vscode.Diagnostic` with its `source`/`code` assignments. -/
structure Diagnostic where
  range : VRange
  message : String
  severity : VsSeverity
  source : String
  code : String
deriving DecidableEq

def convertDiag (d : ADiagnostic) : Diagnostic :=
  { range := ⟨d.span.start, d.span.start + d.span.length⟩,
    message := d.message,
    severity := SEVERITY_MAP d.severity,
    source := "wren-analyzer",
    code := d.code }

def stripQuotes (text : String) : String :=
  if chStartsWith text.data ['"'] && chEndsWith text.data ['"'] then
    ⟨(text.data.drop 1).dropLast⟩
  else text

/-- A document together with the output of the external black-box call
`analyze(document.getText(), document.uri.fsPath)` (spec section 6):
the parsed module and the raw analyzer diagnostics. -/
structure SrcDocument where
  uri : Uri
  version : Nat
  module : Module
  rawDiagnostics : List ADiagnostic

structure AnalysisOutput where
  index : WrenFileIndex
  diagnostics : List Diagnostic
  module : Module

/-- The class-collection arm of `analyzeDocument`'s statement loop. -/
def indexClasses (stmts : List Stmt) : List WrenClassSymbol :=
  stmts.filterMap (fun s =>
    match s with
    | .classStmt n fk ck lb rb ms => some (buildClassSymbol n fk ck lb rb ms)
    | _ => none)

/-- The import-collection arm of `analyzeDocument`'s statement loop
(`if (raw)` skips an empty module name). -/
def indexImports (stmts : List Stmt) : List WrenImportSymbol :=
  stmts.filterMap (fun s =>
    match s with
    | .importStmt path vs =>
      let raw := stripQuotes path.text
      if raw = "" then none
      else some { moduleName := raw,
                  path := normalizeImportPath raw,
                  range := ⟨path.start, path.start + path.length⟩,
                  vars := vs.map (fun ts => ts.map Token.text) }
    | _ => none)

/-- `analyzeDocument` (astIndex.ts): build the per-file index and convert
raw diagnostics; `now` stands for `Date.now()`. -/
def analyzeDocument (doc : SrcDocument) (now : Nat) : AnalysisOutput :=
  { index := { uri := doc.uri, version := doc.version,
               classes := indexClasses doc.module.statements,
               imports := indexImports doc.module.statements,
               parsedAt := now },
    diagnostics := doc.rawDiagnostics.map convertDiag,
    module := doc.module }

/-! ## Language service (`languageService.ts`) -/

structure CachedAnalysis where
  index : WrenFileIndex
  diagnostics : List Diagnostic
  module : Module

/-- `analyzeAndCache`: serve the cached entry while its stored index
version equals the live document version; otherwise run the analyzer
(abstracted as `analyzeDoc`, the external analysis boundary), store the
result under the document's path and return it.  The returned pair is
(result, updated cache). -/
def analyzeAndCache (analyzeDoc : SrcDocument → CachedAnalysis)
    (cache : List (String × CachedAnalysis)) (doc : SrcDocument) :
    CachedAnalysis × List (String × CachedAnalysis) :=
  let key := doc.uri.fsPath
  match jsGet cache key with
  | some cached =>
    if cached.index.version = doc.version then (cached, cache)
    else
      let entry := analyzeDoc doc
      (entry, jsSet cache key entry)
  | none =>
    let entry := analyzeDoc doc
    (entry, jsSet cache key entry)

/-- Ambient service state: the Node `path` functions (platform boundary),
the configured additional search roots, the open workspace folder roots and
the workspace's file system, modelling every path for which `loadIndex`
(open document, external cache or disk read) can produce an index. -/
structure ServiceCfg where
  dirname : String → String
  pathResolve : String → String → String
  additionalSearchRoots : List String
  workspaceFolders : List String
  fsys : List (String × WrenFileIndex)

/-- `resolveCandidates`: join the re-normalized import path against the
requesting file's directory and every additional search root, de-duplicated
in `Set` insertion order. -/
def resolveCandidates (cfg : ServiceCfg) (currentFile importRequest : String) :
    List String :=
  let normalized := normalizeImportPath importRequest
  let baseDir := cfg.dirname currentFile
  insertionDedup (cfg.pathResolve baseDir normalized
    :: cfg.additionalSearchRoots.map (fun root => cfg.pathResolve root normalized))

/-- `getSearchPaths`/`getSearchPathsForFile`: the file's own directory,
then workspace folder roots, then configured additional roots, each added
only when not already present. -/
def getSearchPathsForFile (cfg : ServiceCfg) (fsPath : String) : List String :=
  let paths := [cfg.dirname fsPath]
  let paths := cfg.workspaceFolders.foldl
    (fun acc root => if root ∈ acc then acc else acc ++ [root]) paths
  cfg.additionalSearchRoots.foldl
    (fun acc root => if root ∈ acc then acc else acc ++ [root]) paths

/-- Modelled from the spec: "Candidate resolution for a given requesting
file's import: join the normalized string against (a) the requesting
file's own directory, (b) every configured additional search root,
(c) every open workspace root — producing a de-duplicated candidate
set."  Stated for comparison with `resolveCandidates`. -/
def resolveCandidatesSpec (cfg : ServiceCfg) (currentFile importRequest : String) :
    List String :=
  let normalized := normalizeImportPath importRequest
  insertionDedup (cfg.pathResolve (cfg.dirname currentFile) normalized
    :: (cfg.additionalSearchRoots.map (fun root => cfg.pathResolve root normalized)
      ++ cfg.workspaceFolders.map (fun root => cfg.pathResolve root normalized)))

/-- `anyExists`: the existence oracle folds the open-document check and the
`fs.stat` probe (IO boundary) into one predicate on paths. -/
def anyExists (oracle : String → Bool) (paths : List String) : Bool :=
  paths.any oracle

/-- The diagnostic pushed for an unresolved import. -/
def mkUnresolvedDiag (imp : WrenImportSymbol) : Diagnostic :=
  { range := imp.range,
    message := "Cannot find module \"" ++ imp.moduleName ++ "\".",
    severity := .warning,
    source := "wren-analyzer",
    code := "unresolved-import" }

/-- `getDiagnostics`: the cached analyzer diagnostics plus one warning per
non-built-in import none of whose candidates exists. -/
def getDiagnostics (cfg : ServiceCfg) (oracle : String → Bool)
    (cached : CachedAnalysis) (docPath : String) : List Diagnostic :=
  cached.diagnostics ++ cached.index.imports.filterMap (fun imp =>
    if isBuiltinModule imp.moduleName then none
    else if anyExists oracle (resolveCandidates cfg docPath imp.path) then none
    else some (mkUnresolvedDiag imp))

/-! ## Workspace aggregation (`collectWorkspaceEntries` /
`getWorkspaceAggregate`) -/

structure IndexEntry where
  classes : List WrenClassSymbol
  visibleNames : Option (List String)
deriving DecidableEq

structure PendingEntry where
  index : WrenFileIndex
  visibleNames : Option (List String)
deriving DecidableEq

/-- `loadIndex`: open documents, the external cache and fresh disk reads
all resolve to the index the modelled workspace state records for the
path; `none` models a failed load (missing file / IO error). -/
def loadIndex (cfg : ServiceCfg) (fsPath : String) : Option WrenFileIndex :=
  jsGet cfg.fsys fsPath

/-- One `for (const imp of current.index.imports)` iteration: built-in
modules contribute registry classes directly to the results; user modules
resolve candidates and push every loadable, unvisited candidate. -/
def importStep (cfg : ServiceCfg) (visited : List String) (fsPath : String)
    (acc : List IndexEntry × List PendingEntry) (imp : WrenImportSymbol) :
    List IndexEntry × List PendingEntry :=
  let visibleNames := imp.vars
  if isBuiltinModule imp.moduleName then
    match getBuiltinClasses imp.moduleName with
    | some builtinClasses => (acc.1 ++ [⟨builtinClasses, visibleNames⟩], acc.2)
    | none => acc
  else
    let candidates := resolveCandidates cfg fsPath imp.path
    (acc.1, candidates.foldl (fun pacc candidate =>
      if candidate ∈ visited then pacc
      else
        match loadIndex cfg candidate with
        | some idx => pacc ++ [⟨idx, visibleNames⟩]
        | none => pacc) acc.2)

def processImports (cfg : ServiceCfg) (visited : List String) (fsPath : String)
    (imps : List WrenImportSymbol) : List IndexEntry × List PendingEntry :=
  imps.foldl (importStep cfg visited fsPath) ([], [])

/-- Worklist state of `collectWorkspaceEntries`.  `contrib` is ghost
instrumentation: the canonical path of each file entry appended to
`results`, in append order; the program itself has no such field. -/
structure TravState where
  visited : List String
  pending : List PendingEntry
  results : List IndexEntry
  contrib : List String
deriving DecidableEq

/-- One iteration of the `while (pending.length > 0)` loop body on a
popped entry `e` (the worklist is a stack: `pending.pop()` takes the most
recently pushed entry, so new pushes are reversed onto the head here). -/
def stepEntry (cfg : ServiceCfg) (st : TravState) (e : PendingEntry)
    (rest : List PendingEntry) : TravState :=
  let fsPath := e.index.uri.fsPath
  if fsPath ∈ st.visited then { st with pending := rest }
  else
    let visited := fsPath :: st.visited
    let step := processImports cfg visited fsPath e.index.imports
    { visited := visited,
      pending := step.2.reverse ++ rest,
      results := st.results ++ ⟨e.index.classes, e.visibleNames⟩ :: step.1,
      contrib := st.contrib ++ [fsPath] }

/-- The worklist loop, fuelled: one unit of fuel per iteration; `none`
when fuel runs out before the worklist empties. -/
def loopFuel (cfg : ServiceCfg) : Nat → TravState → Option TravState
  | n, st =>
    match st.pending with
    | [] => some st
    | e :: rest =>
      match n with
      | 0 => none
      | Nat.succ m => loopFuel cfg m (stepEntry cfg st e rest)

/-- Initial worklist state of `collectWorkspaceEntries`: core classes are
pre-seeded into the results, the root file is the only pending entry. -/
def initState (root : WrenFileIndex) : TravState :=
  { visited := [], pending := [⟨root, none⟩],
    results := [⟨CORE_CLASSES, none⟩], contrib := [] }

def collectEntriesFuel (cfg : ServiceCfg) (root : WrenFileIndex) (fuel : Nat) :
    Option TravState :=
  loopFuel cfg fuel (initState root)

/-! ## Bucket merge (`getWorkspaceAggregate`) -/

structure AggregatedClassIndex where
  name : String
  methods : List (String × List WrenMethodSymbol)
  staticMethods : List (String × List WrenMethodSymbol)
deriving DecidableEq

/-- Append an overload to its per-name list, creating the list on first
use (`bucket.methods.get(name) ?? []`, push, `set`). -/
def addOverload (buckets : List (String × List WrenMethodSymbol))
    (m : WrenMethodSymbol) : List (String × List WrenMethodSymbol) :=
  jsSet buckets m.name ((jsGet buckets m.name).getD [] ++ [m])

/-- Merge one class into the bucket map: fetch or create the bucket, append
every instance and static overload, store it back under the class name. -/
def mergeClass (classes : List (String × AggregatedClassIndex))
    (cls : WrenClassSymbol) : List (String × AggregatedClassIndex) :=
  let bucket0 := (jsGet classes cls.name).getD ⟨cls.name, [], []⟩
  let bucket1 := { bucket0 with methods := cls.methods.foldl addOverload bucket0.methods }
  let bucket2 := { bucket1 with
    staticMethods := cls.staticMethods.foldl addOverload bucket1.staticMethods }
  jsSet classes cls.name bucket2

/-- The skip test `visibleNames !== null && !visibleNames.has(cls.name)`. -/
def hiddenBy (vis : Option (List String)) (n : String) : Bool :=
  match vis with
  | some vs => !(vs.contains n)
  | none => false

def mergeEntry (classes : List (String × AggregatedClassIndex))
    (e : IndexEntry) : List (String × AggregatedClassIndex) :=
  e.classes.foldl (fun acc cls =>
    if hiddenBy e.visibleNames cls.name then acc else mergeClass acc cls) classes

/-- The entry fold of `getWorkspaceAggregate`. -/
def buildAggregate (entries : List IndexEntry) :
    List (String × AggregatedClassIndex) :=
  entries.foldl mergeEntry []

/-- `getWorkspaceAggregate` over a fuelled traversal of the root's import
graph. -/
def getWorkspaceAggregateFuel (cfg : ServiceCfg) (root : WrenFileIndex)
    (fuel : Nat) : Option (List (String × AggregatedClassIndex)) :=
  (collectEntriesFuel cfg root fuel).map (fun st => buildAggregate st.results)


/-! ## Signature context analyzer (`extension.ts`) -/

structure SignatureContext where
  methodName : String
  receiver : Option String
  receiverIsClass : Bool
  parameterIndex : Nat
deriving DecidableEq

/-- JS regex class `[A-Za-z0-9_]`. -/
def identChar (c : Char) : Bool :=
  ('A' ≤ c && c ≤ 'Z') || ('a' ≤ c && c ≤ 'z') || ('0' ≤ c && c ≤ '9') || c = '_'

/-- The backward scan of `analyzeSignatureContext`: walk the pre-cursor
line right to left (the input here is the reversed line), counting `)`
up and `(` down, stopping at the first `(` seen at depth 0.  Returns the
text before that parenthesis and the argument slice after it, both in
source order. -/
def findOpen : List Char → List Char → Nat → Option (List Char × List Char)
  | [], _, _ => none
  | c :: rest, acc, depth =>
    if c = '(' then
      if depth = 0 then some (rest.reverse, acc)
      else findOpen rest (c :: acc) (depth - 1)
    else if c = ')' then findOpen rest (c :: acc) (depth + 1)
    else findOpen rest (c :: acc) depth

/-- JS `trimEnd`. -/
def jsTrimEndChars (l : List Char) : List Char :=
  (l.reverse.dropWhile wsChar).reverse

/-- The `$`-anchored identifier match `/([A-Za-z_][A-Za-z0-9_]*)$/`: the
maximal identifier-character suffix, shortened from the left until it
starts with a letter or underscore (the regex engine takes the leftmost
start position that still matches to the end). -/
def identTail (l : List Char) : List Char :=
  ((l.reverse.takeWhile identChar).reverse).dropWhile (fun c => c.isDigit)

/-- The receiver match `/([A-Za-z_][A-Za-z0-9_]*)\.\s*$/`. -/
def receiverMatch (l : List Char) : Option (List Char) :=
  match l.reverse.dropWhile wsChar with
  | '.' :: rest =>
    let recv := identTail rest.reverse
    if recv.isEmpty then none else some recv
  | _ => none

/-- The forward scan computing the active parameter index: count commas at
depth 0, treat matched pairs as opaque, stop at a depth-0 `)`. -/
def paramScan : List Char → Nat → Nat → Nat
  | [], _, acc => acc
  | c :: rest, depth, acc =>
    if c = '(' then paramScan rest (depth + 1) acc
    else if c = ')' then
      if depth = 0 then acc else paramScan rest (depth - 1) acc
    else if c = ',' then
      if depth = 0 then paramScan rest depth (acc + 1) else paramScan rest depth acc
    else paramScan rest depth acc

/-- `analyzeSignatureContext` on the text of the current line strictly
before the cursor (the editor-side slicing
`document.lineAt(line).text.slice(0, position.character)` is the input
boundary here). -/
def analyzeSignatureContext (line : String) : Option SignatureContext :=
  match findOpen line.data.reverse [] 0 with
  | none => none
  | some headArg =>
    let head := jsTrimEndChars headArg.1
    let mname := identTail head
    if mname.isEmpty then none
    else
      let headBeforeMethod := head.take (head.length - mname.length)
      let recv := receiverMatch headBeforeMethod
      some { methodName := ⟨mname⟩,
             receiver := recv.map (fun r => (⟨r⟩ : String)),
             receiverIsClass :=
               match recv with
               | some r => startsUpper ⟨r⟩
               | none => false,
             parameterIndex := paramScan headArg.2 0 0 }

/-- Modelled from the spec: "The active parameter index is the count of
top-level commas (depth-tracked the same way, scanning forward) between
the opening parenthesis and the cursor."  This count never stops early;
stated for comparison with `paramScan`. -/
def commaCount : List Char → Nat → Nat
  | [], _ => 0
  | c :: rest, depth =>
    if c = '(' then commaCount rest (depth + 1)
    else if c = ')' then commaCount rest (depth - 1)
    else if c = ',' then (if depth = 0 then 1 else 0) + commaCount rest depth
    else commaCount rest depth

/-- Forward scans of this list starting at the given depth never reach a
`)` while at depth 0 (the `break` of the source loop never fires). -/
def noBreak : List Char → Nat → Bool
  | [], _ => true
  | c :: rest, depth =>
    if c = '(' then noBreak rest (depth + 1)
    else if c = ')' then depth != 0 && noBreak rest (depth - 1)
    else noBreak rest depth


/-! ## Reachability and well-formedness of the modelled workspace -/

/-- The modelled workspace state is canonically keyed: every file-system
entry records an index whose `uri.fsPath` equals its key (which is what
`loadIndex` produces: `analyzeDocument` stamps the loaded document's own
path into the index). -/
def WellFormedFs (cfg : ServiceCfg) : Prop :=
  ∀ kv ∈ cfg.fsys, kv.2.uri.fsPath = kv.1

/-- The index the traversal expands for a canonical path: the root file
itself for the root path, otherwise the loadable index at that path. -/
def indexAt (cfg : ServiceCfg) (root : WrenFileIndex) (p : String) :
    Option WrenFileIndex :=
  if p = root.uri.fsPath then some root else loadIndex cfg p

/-- A canonical path is reachable when a chain of resolvable, loadable,
non-built-in imports leads to it from the root file. -/
inductive ReachPath (cfg : ServiceCfg) (root : WrenFileIndex) : String → Prop where
  | root : ReachPath cfg root root.uri.fsPath
  | step {p c : String} {idx : WrenFileIndex} {imp : WrenImportSymbol} :
      ReachPath cfg root p →
      indexAt cfg root p = some idx →
      imp ∈ idx.imports →
      isBuiltinModule imp.moduleName = false →
      c ∈ resolveCandidates cfg p imp.path →
      (loadIndex cfg c).isSome →
      ReachPath cfg root c

/-! ## Concrete instances used by the claim witnesses -/

/-- Names of the always-available core classes. -/
def coreClassNames : List String :=
  ["Object", "Class", "Bool", "Null", "Num", "Sequence", "String", "List",
   "Map", "Range", "Fiber", "Fn", "System", "MapEntry"]

def exModule : Module := ⟨[]⟩

def exDoc2 : SrcDocument := ⟨⟨"/w/a.wren"⟩, 1, exModule, []⟩

def exDoc2b : SrcDocument := ⟨⟨"/w/a.wren"⟩, 2, exModule, []⟩

def exEntry2 : CachedAnalysis :=
  ⟨⟨⟨"/w/a.wren"⟩, 1, [], [], 0⟩, [], exModule⟩

def exCache2 : List (String × CachedAnalysis) := [("/w/a.wren", exEntry2)]

def exAnalyze2 : SrcDocument → CachedAnalysis :=
  fun doc => ⟨⟨doc.uri, doc.version, [], [], 7⟩, [], doc.module⟩

/-- A toy path model for candidate-resolution witnesses: `dirname` maps
every file to `"/d"`, joining is string concatenation with a slash. -/
def cfg8 : ServiceCfg :=
  ⟨fun _ => "/d", fun r s => r ++ "/" ++ s, [], ["/w"], []⟩

/-- Single-module workspace used by the selective-import families: one
loadable module file at canonical path `"m.wren"` holding the classes
`cs`, reachable from the root at `"r.wren"`. -/
def mIndex (cs : List WrenClassSymbol) : WrenFileIndex :=
  ⟨⟨"m.wren"⟩, 1, cs, [], 0⟩

def mImport (vis : Option (List String)) : WrenImportSymbol :=
  ⟨"m", "m.wren", ⟨7, 10⟩, vis⟩

def mRoot (imps : List WrenImportSymbol) : WrenFileIndex :=
  ⟨⟨"r.wren"⟩, 1, [], imps, 0⟩

def mCfg (cs : List WrenClassSymbol) : ServiceCfg :=
  ⟨fun _ => "", fun _ s => s, [], [], [("m.wren", mIndex cs)]⟩

/-- Cyclic two-file workspace: `a.wren` imports `b`, `b.wren` imports `a`. -/
def cycIndexA : WrenFileIndex :=
  ⟨⟨"a.wren"⟩, 1, [], [⟨"b", "b.wren", ⟨7, 10⟩, none⟩], 0⟩

def cycIndexB : WrenFileIndex :=
  ⟨⟨"b.wren"⟩, 1, [], [⟨"a", "a.wren", ⟨7, 10⟩, none⟩], 0⟩

def cycCfg : ServiceCfg :=
  ⟨fun _ => "", fun _ s => s, [], [],
   [("a.wren", cycIndexA), ("b.wren", cycIndexB)]⟩


/-- Modelled from the spec: Wren operators are methods, so `1 + 2` parses
as a call of member `"+"` on receiver `1` with argument `2` (and likewise
for `".."`); the initializer of `var x = 1 + 2` is therefore this node. -/
def exOnePlusTwo : Expr :=
  .callExpr (some (.numExpr (tok "1" 8 1))) (tok "+" 10 1)
    (some [.numExpr (tok "2" 12 1)]) none

/-- Modelled from the spec: the initializer of `var s = "a" + "b"`. -/
def exStrConcat : Expr :=
  .callExpr (some (.stringExpr (tok "\"a\"" 8 3))) (tok "+" 12 1)
    (some [.stringExpr (tok "\"b\"" 14 3)]) none

/-- Modelled from the spec: the initializer of `var r = 1..10`. -/
def exRange : Expr :=
  .callExpr (some (.numExpr (tok "1" 8 1))) (tok ".." 9 2)
    (some [.numExpr (tok "10" 11 2)]) none


/-- Modelled from the spec: a method whose body is a single block holding
`var x1 : t1` (a declaration nested one block deep). -/
def c4Method1 (m1t x1 : Token) (t1 : TypeAnnot) : Method :=
  .mk m1t none none none false none none
    (some (.mk none (some [.blockStmt [.varStmt x1 (some t1) none]])))

/-- Modelled from the spec: a method whose body holds an `if` whose then
branch block declares `var x2 : t2`, followed by a call statement whose
block argument (closure) declares `var y : t3`. -/
def c4Method2 (m2t x2 y ft : Token) (t2 t3 : TypeAnnot) (cond : Expr) : Method :=
  .mk m2t none none none false none none
    (some (.mk none (some
      [.ifStmt cond (.blockStmt [.varStmt x2 (some t2) none]) none,
       .exprStmt (.callExpr none ft (some [])
         (some (.mk none (some [.varStmt y (some t3) none]))))])))

/-- Modelled from the spec: a module with one class carrying the two
methods above. -/
def c4Module (cname ck lb rb m1t m2t x1 x2 y ft : Token)
    (t1 t2 t3 : TypeAnnot) (cond : Expr) : Module :=
  ⟨[.classStmt cname none ck lb rb
      [c4Method1 m1t x1 t1, c4Method2 m2t x2 y ft t2 t3 cond]]⟩


/-- The `CachedAnalysis` entry that `analyzeAndCache` stores from a fresh
`analyzeDocument` run (it copies `index`, `diagnostics` and `module`). -/
def outToCached (o : AnalysisOutput) : CachedAnalysis :=
  ⟨o.index, o.diagnostics, o.module⟩

/-- Modelled from the spec: a source document with one non-built-in
module import of `"m"` and one (empty) class declaration, and no
analyzer diagnostics. -/
def c6Doc : SrcDocument :=
  ⟨⟨"/d/f.wren"⟩, 1,
   ⟨[Stmt.importStmt ⟨"\"m\"", 7, 3, .plain⟩ none,
     Stmt.classStmt (tok "C" 20 1) none (tok "class" 14 5) (tok "\x7b" 22 1)
       (tok "\x7d" 24 1) []]⟩,
   []⟩

/-- The import record that `analyzeDocument` indexes from `c6Doc`. -/
def c6Imp : WrenImportSymbol := ⟨"m", "m.wren", ⟨7, 10⟩, none⟩


/-- Concrete classes used by the aggregation witnesses. -/
def c3X : WrenClassSymbol := ⟨"X", ⟨0, 0⟩, ⟨0, 0⟩, [], [], []⟩

def c3Y : WrenClassSymbol := ⟨"Y", ⟨0, 0⟩, ⟨0, 0⟩, [], [], []⟩

/-- Canonical path of a pending worklist entry. -/
def pathOf (e : PendingEntry) : String := e.index.uri.fsPath

/-- Every canonical path the traversal can ever visit or enqueue: the
root file's path and the paths of the modelled workspace state. -/
def uSet (cfg : ServiceCfg) (root : WrenFileIndex) : List String :=
  root.uri.fsPath :: cfg.fsys.map Prod.fst

/-- One-step import successor relation on canonical paths, as expanded by
the worklist loop (via `indexAt`). -/
def Succ (cfg : ServiceCfg) (root : WrenFileIndex) (p c : String) : Prop :=
  ∃ idx imp, indexAt cfg root p = some idx ∧ imp ∈ idx.imports ∧
    isBuiltinModule imp.moduleName = false ∧
    c ∈ resolveCandidates cfg p imp.path ∧ (loadIndex cfg c).isSome

/-- Loop invariant of `collectWorkspaceEntries`'s worklist. -/
def Inv (cfg : ServiceCfg) (root : WrenFileIndex) (st : TravState) : Prop :=
  st.visited.Nodup ∧
  st.contrib = st.visited.reverse ∧
  (∀ p ∈ st.visited, p ∈ uSet cfg root) ∧
  (∀ e ∈ st.pending, pathOf e ∈ uSet cfg root) ∧
  (∀ e ∈ st.pending, loadIndex cfg (pathOf e) = some e.index ∨
      (e.index = root ∧ pathOf e = root.uri.fsPath)) ∧
  (root.uri.fsPath ∈ st.visited ∨
      (st.visited = [] ∧ st.pending = [⟨root, none⟩])) ∧
  (∀ p ∈ st.visited, ∀ c, Succ cfg root p c →
      c ∈ st.visited ∨ c ∈ st.pending.map pathOf)

/-- Count of modelled paths not yet visited (the termination measure). -/
def remaining (cfg : ServiceCfg) (root : WrenFileIndex) (st : TravState) : Nat :=
  ((uSet cfg root).filter (fun p => decide (¬ p ∈ st.visited))).length


/-! ## Claim C7: signature context -/

/-- The `noBreak` invariant travels through the backward scan: whatever
argument slice `findOpen` returns is safe for the forward scan. -/
theorem findOpen_noBreak (rev : List Char) :
    ∀ (acc : List Char) (depth : Nat) (head arg : List Char),
      noBreak acc depth = true →
      findOpen rev acc depth = some (head, arg) →
      noBreak arg 0 = true := by
  induction rev with
  | nil =>
    intro acc depth head arg _ hfind
    simp [findOpen] at hfind
  | cons c rest ih =>
    intro acc depth head arg hacc hfind
    by_cases hop : c = '('
    · subst hop
      by_cases hd : depth = 0
      · subst hd
        simp [findOpen] at hfind
        rcases hfind with ⟨_, harg⟩
        exact harg ▸ hacc
      · rw [findOpen, if_pos rfl, if_neg hd] at hfind
        refine ih _ _ _ _ ?_ hfind
        have heq : noBreak ('(' :: acc) (depth - 1) = noBreak acc (depth - 1 + 1) := by
          simp [noBreak]
        have h1 : depth - 1 + 1 = depth := by omega
        rw [heq, h1]
        exact hacc
    · by_cases hcl : c = ')'
      · subst hcl
        rw [findOpen] at hfind
        simp only [if_neg (by decide : ¬ (')' : Char) = '('), if_pos rfl] at hfind
        refine ih _ _ _ _ ?_ hfind
        have heq : noBreak (')' :: acc) (depth + 1) =
            ((depth + 1 != 0) && noBreak acc (depth + 1 - 1)) := by
          simp [noBreak]
        rw [heq]
        simp only [Nat.add_sub_cancel]
        simp [hacc]
      · rw [findOpen, if_neg hop, if_neg hcl] at hfind
        refine ih _ _ _ _ ?_ hfind
        have heq : noBreak (c :: acc) depth = noBreak acc depth := by
          simp [noBreak, hop, hcl]
        rw [heq]
        exact hacc

/-- Under `noBreak`, the source's breaking scan computes exactly the
full depth-zero comma count. -/
theorem paramScan_eq_commaCount (l : List Char) :
    ∀ (depth acc : Nat), noBreak l depth = true →
      paramScan l depth acc = acc + commaCount l depth := by
  induction l with
  | nil => intro depth acc _; simp [paramScan, commaCount]
  | cons c rest ih =>
    intro depth acc hnb
    by_cases hop : c = '('
    · subst hop
      rw [paramScan, if_pos rfl, commaCount, if_pos rfl]
      exact ih _ _ (by simpa [noBreak] using hnb)
    · by_cases hcl : c = ')'
      · subst hcl
        have hnb' : (depth != 0) = true ∧ noBreak rest (depth - 1) = true := by
          have := hnb
          rw [noBreak, if_neg (by decide : ¬ (')' : Char) = '('), if_pos rfl] at this
          exact Bool.and_eq_true_iff.mp this
        have hdne : depth ≠ 0 := by simpa using hnb'.1
        rw [paramScan, if_neg (by decide : ¬ (')' : Char) = '('), if_pos rfl,
          if_neg hdne, commaCount, if_neg (by decide : ¬ (')' : Char) = '('),
          if_pos rfl]
        exact ih _ _ hnb'.2
      · by_cases hcm : c = ','
        · subst hcm
          have hnb' : noBreak rest depth = true := by
            simpa [noBreak] using hnb
          rw [paramScan, if_neg hop, if_neg hcl, if_pos rfl,
            commaCount, if_neg hop, if_neg hcl, if_pos rfl]
          by_cases hd : depth = 0
          · subst hd
            rw [if_pos rfl, if_pos rfl, ih _ _ hnb']
            omega
          · rw [if_neg hd, if_neg hd, ih _ _ hnb']
            omega
        · have hnb' : noBreak rest depth = true := by
            simpa [noBreak, hop, hcl] using hnb
          rw [paramScan, if_neg hop, if_neg hcl, if_neg hcm,
            commaCount, if_neg hop, if_neg hcl, if_neg hcm]
          exact ih _ _ hnb'

/-- Claim C7: for the line text `n.clamp(0,` with the cursor at its end,
the signature context analyzer reports member name `clamp`, receiver `n`
classified as a value reference (lowercase first character), and active
parameter index 1; and in general, whenever the backward scan locates the
nearest unmatched opening parenthesis, the active parameter index equals
the count of depth-zero commas between that parenthesis and the cursor,
with matched parenthesis pairs treated as opaque. -/
theorem signature_context_matches_spec :
    analyzeSignatureContext "n.clamp(0," =
      some { methodName := "clamp", receiver := some "n",
             receiverIsClass := false, parameterIndex := 1 } ∧
    ∀ (line acc head arg : List Char) (depth : Nat),
      noBreak acc depth = true →
      findOpen line acc depth = some (head, arg) →
      paramScan arg 0 0 = commaCount arg 0 := by
  constructor
  · decide
  · intro line acc head arg depth hacc hfind
    have h0 : noBreak arg 0 = true := findOpen_noBreak line acc depth head arg hacc hfind
    simpa using paramScan_eq_commaCount arg 0 0 h0

/-- Witness for C7's general clause at the concrete line `n.clamp(0,`. -/
theorem signature_context_matches_spec_witness :
    (noBreak ([] : List Char) 0 = true ∧
      findOpen ("n.clamp(0,".data.reverse) [] 0 =
        some ("n.clamp".data, "0,".data)) ∧
    paramScan "0,".data 0 0 = commaCount "0,".data 0 :=
  ⟨⟨by decide, by decide⟩,
    signature_context_matches_spec.2 ("n.clamp(0,".data.reverse) [] "n.clamp".data
      "0,".data 0 (by decide) (by decide)⟩


/-! ## Claim C10 support: `splitSlash`, `lastRun` and `takeWhile` facts -/

/-- Characters allowed inside one path segment. -/
def notSlash (c : Char) : Bool := c != '/'

/-- The maximal separator-free suffix of a path. -/
def lastRun (l : List Char) : List Char :=
  (l.reverse.takeWhile notSlash).reverse

theorem rev_prefix_iff (l₁ l₂ : List Char) :
    l₁.reverse <+: l₂.reverse ↔ l₁ <:+ l₂ :=
  List.reverse_prefix

theorem takeWhile_append_all {p : Char → Bool} (xs ys : List Char)
    (h : ∀ x ∈ xs, p x = true) :
    (xs ++ ys).takeWhile p = xs ++ ys.takeWhile p := by
  induction xs with
  | nil => simp
  | cons a xs ih =>
    have ha : p a = true := h a (by simp)
    simp only [List.cons_append, List.takeWhile_cons, ha, if_true]
    rw [ih (fun x hx => h x (by simp [hx]))]

theorem takeWhile_append_stop {p : Char → Bool} (xs ys : List Char)
    (h : ∃ x ∈ xs, p x = false) :
    (xs ++ ys).takeWhile p = xs.takeWhile p := by
  induction xs with
  | nil => simp at h
  | cons a xs ih =>
    by_cases hpa : p a = true
    · have hx : ∃ x ∈ xs, p x = false := by
        rcases h with ⟨x, hx, hpx⟩
        rcases List.mem_cons.mp hx with rfl | hmem
        · rw [hpa] at hpx; cases hpx
        · exact ⟨x, hmem, hpx⟩
      simp only [List.cons_append, List.takeWhile_cons, hpa, if_true]
      rw [ih hx]
    · have hpa' : p a = false := by revert hpa; cases p a <;> simp
      simp [List.takeWhile_cons, hpa']

theorem takeWhile_keeps_front {p : Char → Bool} (xs l : List Char)
    (hpre : xs <+: l) (hall : ∀ x ∈ xs, p x = true) :
    xs <+: l.takeWhile p := by
  obtain ⟨t, rfl⟩ := hpre
  rw [takeWhile_append_all xs t hall]
  exact List.prefix_append xs _

theorem splitSlash_ne_nil (l : List Char) : splitSlash l ≠ [] := by
  cases l with
  | nil => simp [splitSlash]
  | cons c rest =>
    show (match splitSlash rest with
      | [] => [[]]
      | seg :: segs =>
        if c = '/' then [] :: seg :: segs else (c :: seg) :: segs) ≠ []
    rcases splitSlash rest with _ | ⟨s, ss⟩
    · simp
    · by_cases hc : c = '/' <;> simp [hc]

theorem splitSlash_cons_eq (c : Char) (l : List Char) :
    ∃ s ss, splitSlash l = s :: ss ∧
      splitSlash (c :: l) =
        (if c = '/' then [] :: s :: ss else (c :: s) :: ss) := by
  rcases h : splitSlash l with _ | ⟨s, ss⟩
  · exact absurd h (splitSlash_ne_nil l)
  · refine ⟨s, ss, rfl, ?_⟩
    show (match splitSlash l with
      | [] => [[]]
      | seg :: segs =>
        if c = '/' then [] :: seg :: segs else (c :: seg) :: segs) = _
    rw [h]

theorem splitSlash_no_slash (l : List Char) (h : '/' ∉ l) :
    splitSlash l = [l] := by
  induction l with
  | nil => rfl
  | cons c rest ih =>
    have hc : c ≠ '/' := fun hh => h (hh ▸ List.mem_cons_self c rest)
    have hr : '/' ∉ rest := fun hh => h (List.mem_cons_of_mem c hh)
    obtain ⟨s, ss, hsplit, hcons⟩ := splitSlash_cons_eq c rest
    rw [hcons, if_neg hc, ih hr] at *
    rw [ih hr] at hsplit
    obtain ⟨rfl, rfl⟩ : s = rest ∧ ss = [] := by
      cases hsplit; exact ⟨rfl, rfl⟩
    rfl

theorem splitSlash_singleton (l : List Char) (s : List Char)
    (h : splitSlash l = [s]) : s = l ∧ '/' ∉ l := by
  induction l generalizing s with
  | nil =>
    have h' : ([[]] : List (List Char)) = [s] := h
    cases h'
    exact ⟨rfl, by simp⟩
  | cons c rest ih =>
    obtain ⟨s0, ss, hsplit, hcons⟩ := splitSlash_cons_eq c rest
    by_cases hc : c = '/'
    · rw [hcons, if_pos hc] at h
      cases h
    · rw [hcons, if_neg hc] at h
      obtain ⟨hs, hss⟩ : s = c :: s0 ∧ ss = [] := by cases h; exact ⟨rfl, rfl⟩
      subst hss
      obtain ⟨rfl, hfree⟩ := ih s0 hsplit
      subst hs
      exact ⟨rfl, by
        intro hmem
        rcases List.mem_cons.mp hmem with heq | hmem'
        · exact hc heq.symm
        · exact hfree hmem'⟩

theorem slash_mem_of_splitSlash_len (l : List Char)
    (h : 2 ≤ (splitSlash l).length) : '/' ∈ l := by
  by_contra hmem
  rw [splitSlash_no_slash l hmem] at h
  simp at h

theorem no_slash_of_mem_splitSlash (l : List Char) :
    ∀ seg ∈ splitSlash l, '/' ∉ seg := by
  induction l with
  | nil =>
    intro seg hseg
    simp [splitSlash] at hseg
    simp [hseg]
  | cons c rest ih =>
    intro seg hseg
    obtain ⟨s, ss, hsplit, hcons⟩ := splitSlash_cons_eq c rest
    by_cases hc : c = '/'
    · rw [hcons, if_pos hc] at hseg
      rcases List.mem_cons.mp hseg with rfl | hmem
      · simp
      · exact ih seg (hsplit ▸ hmem)
    · rw [hcons, if_neg hc] at hseg
      rcases List.mem_cons.mp hseg with rfl | hmem
      · intro hsl
        rcases List.mem_cons.mp hsl with heq | hmem'
        · exact hc heq.symm
        · exact ih s (hsplit ▸ List.mem_cons_self s ss) hmem'
      · exact ih seg (hsplit ▸ List.mem_cons_of_mem s hmem)

theorem chars_of_mem_splitSlash (l : List Char) :
    ∀ seg ∈ splitSlash l, ∀ c ∈ seg, c ∈ l := by
  induction l with
  | nil =>
    intro seg hseg c hc
    simp [splitSlash] at hseg
    subst hseg
    cases hc
  | cons a rest ih =>
    intro seg hseg c hc
    obtain ⟨s, ss, hsplit, hcons⟩ := splitSlash_cons_eq a rest
    by_cases ha : a = '/'
    · rw [hcons, if_pos ha] at hseg
      rcases List.mem_cons.mp hseg with rfl | hmem
      · cases hc
      · exact List.mem_cons_of_mem a (ih seg (hsplit ▸ hmem) c hc)
    · rw [hcons, if_neg ha] at hseg
      rcases List.mem_cons.mp hseg with rfl | hmem
      · rcases List.mem_cons.mp hc with rfl | hmem'
        · exact List.mem_cons_self c rest
        · exact List.mem_cons_of_mem a
            (ih s (hsplit ▸ List.mem_cons_self s ss) c hmem')
      · exact List.mem_cons_of_mem a (ih seg (hsplit ▸ List.mem_cons_of_mem s hmem) c hc)

theorem splitSlash_append_slash (s t : List Char) (h : '/' ∉ s) :
    splitSlash (s ++ '/' :: t) = s :: splitSlash t := by
  induction s with
  | nil =>
    obtain ⟨s0, ss, hsplit, hcons⟩ := splitSlash_cons_eq '/' t
    rw [List.nil_append, hcons, if_pos rfl, hsplit]
  | cons a s ih =>
    have ha : a ≠ '/' := fun hh => h (hh ▸ List.mem_cons_self a s)
    have hs : '/' ∉ s := fun hh => h (List.mem_cons_of_mem a hh)
    obtain ⟨s0, ss, hsplit, hcons⟩ := splitSlash_cons_eq a (s ++ '/' :: t)
    rw [ih hs] at hsplit
    obtain ⟨rfl, rfl⟩ : s0 = s ∧ ss = splitSlash t := by
      cases hsplit; exact ⟨rfl, rfl⟩
    rw [List.cons_append, hcons, if_neg ha]

theorem splitSlash_intercalate (segs : List (List Char)) (hne : segs ≠ [])
    (hfree : ∀ s ∈ segs, '/' ∉ s) :
    splitSlash (intercalateSlash segs) = segs := by
  induction segs with
  | nil => exact absurd rfl hne
  | cons s rest ih =>
    cases rest with
    | nil =>
      show splitSlash (intercalateSlash [s]) = [s]
      exact splitSlash_no_slash s (hfree s (by simp))
    | cons s2 ss =>
      have : intercalateSlash (s :: s2 :: ss) = s ++ '/' :: intercalateSlash (s2 :: ss) := rfl
      rw [this, splitSlash_append_slash s _ (hfree s (by simp)),
        ih (by simp) (fun x hx => hfree x (List.mem_cons_of_mem s hx))]

theorem lastRun_cons_of_mem (c : Char) (l : List Char) (h : '/' ∈ l) :
    lastRun (c :: l) = lastRun l := by
  unfold lastRun
  rw [List.reverse_cons, takeWhile_append_stop]
  exact ⟨'/', List.mem_reverse.mpr h, by simp [notSlash]⟩

theorem lastRun_cons_slash (l : List Char) :
    lastRun ('/' :: l) = lastRun l := by
  by_cases h : '/' ∈ l
  · exact lastRun_cons_of_mem '/' l h
  · have hall : ∀ x ∈ l.reverse, notSlash x = true := by
      intro x hx
      have : x ≠ '/' := fun hh => h (hh ▸ List.mem_reverse.mp hx)
      simp [notSlash, this]
    unfold lastRun
    rw [List.reverse_cons, takeWhile_append_all _ _ hall,
      List.takeWhile_eq_self_iff.mpr hall]
    simp [List.takeWhile_cons, notSlash]

theorem lastRun_free (c : Char) (l : List Char) (hc : c ≠ '/') (hl : '/' ∉ l) :
    lastRun (c :: l) = c :: l := by
  have hall : ∀ x ∈ (c :: l).reverse, notSlash x = true := by
    intro x hx
    have hx' := List.mem_reverse.mp hx
    rcases List.mem_cons.mp hx' with rfl | hmem
    · simp [notSlash, hc]
    · have : x ≠ '/' := fun hh => hl (hh ▸ hmem)
      simp [notSlash, this]
  unfold lastRun
  rw [List.takeWhile_eq_self_iff.mpr hall, List.reverse_reverse]

theorem splitSlash_decomp (l : List Char) :
    ∃ segs, splitSlash l = segs ++ [lastRun l] := by
  induction l with
  | nil => exact ⟨[], rfl⟩
  | cons c rest ih =>
    obtain ⟨segs, hsegs⟩ := ih
    obtain ⟨s, ss, hsplit, hcons⟩ := splitSlash_cons_eq c rest
    by_cases hc : c = '/'
    · subst hc
      rw [hcons, if_pos rfl, lastRun_cons_slash, ← hsplit, hsegs]
      exact ⟨[] :: segs, rfl⟩
    · rw [hcons, if_neg hc]
      cases ss with
      | nil =>
        obtain ⟨heq, hfree⟩ := splitSlash_singleton rest s hsplit
        refine ⟨[], ?_⟩
        rw [lastRun_free c rest hc hfree, heq]
        rfl
      | cons s2 ss' =>
        have hmem : '/' ∈ rest := by
          apply slash_mem_of_splitSlash_len
          rw [hsplit]; simp
        rw [lastRun_cons_of_mem c rest hmem]
        have heq : s :: s2 :: ss' = segs ++ [lastRun rest] := by
          rw [← hsplit, hsegs]
        cases segs with
        | nil =>
          exfalso
          have hlen : (s :: s2 :: ss').length = 1 := by rw [heq]; simp
          simp at hlen
        | cons sg sgs =>
          rw [List.cons_append] at heq
          injection heq with h1 h2
          refine ⟨(c :: s) :: sgs, ?_⟩
          rw [List.cons_append, ← h2]


/-! ## Claim C10 support: suffix transfer and `normStack` structure -/

theorem suffix_lastRun {l : List Char} (h : wrenExt <:+ l) :
    wrenExt <:+ lastRun l := by
  have hrev : wrenExt.reverse <+: l.reverse := (rev_prefix_iff _ _).mpr h
  have hall : ∀ x ∈ wrenExt.reverse, notSlash x = true := by decide
  have htake := takeWhile_keeps_front wrenExt.reverse l.reverse hrev hall
  have : wrenExt.reverse <+: (lastRun l).reverse := by
    unfold lastRun
    rw [List.reverse_reverse]
    exact htake
  exact (rev_prefix_iff _ _).mp this

theorem ext_good {g : List Char} (h : wrenExt <:+ g) :
    g ≠ [] ∧ g ≠ dotSeg ∧ g ≠ dotDotSeg := by
  have hlen : 5 ≤ g.length := by
    have := h.length_le
    simpa [wrenExt] using this
  refine ⟨?_, ?_, ?_⟩ <;> intro heq <;> subst heq <;> simp [dotSeg, dotDotSeg] at hlen

theorem intercalate_cons₂ (a b : List Char) (rest : List (List Char)) :
    intercalateSlash (a :: b :: rest) = a ++ '/' :: intercalateSlash (b :: rest) := rfl

theorem suffix_intercalate_last (xs : List (List Char)) (g : List Char) :
    g <:+ intercalateSlash (xs ++ [g]) := by
  induction xs with
  | nil => exact List.suffix_refl g
  | cons x xs ih =>
    have hstep : intercalateSlash ((x :: xs) ++ [g]) =
        x ++ '/' :: intercalateSlash (xs ++ [g]) := by
      cases xs with
      | nil => rfl
      | cons y ys => rfl
    rw [hstep]
    exact ((ih.trans ( List.suffix_cons '/' _)).trans ( List.suffix_append x _))

theorem front_intercalate (s : List Char) (rest : List (List Char)) :
    s <+: intercalateSlash (s :: rest) := by
  cases rest with
  | nil => exact List.prefix_refl s
  | cons y ys =>
    rw [intercalate_cons₂]
    exact List.prefix_append s _

theorem mem_intercalate (segs : List (List Char)) :
    ∀ c ∈ intercalateSlash segs, c = '/' ∨ ∃ s ∈ segs, c ∈ s := by
  induction segs with
  | nil => intro c hc; cases hc
  | cons s rest ih =>
    intro c hc
    cases rest with
    | nil =>
      exact Or.inr ⟨s, by simp, hc⟩
    | cons y ys =>
      rw [intercalate_cons₂] at hc
      rcases List.mem_append.mp hc with hin | hin
      · exact Or.inr ⟨s, by simp, hin⟩
      · rcases List.mem_cons.mp hin with rfl | hin'
        · exact Or.inl rfl
        · rcases ih c hin' with h | ⟨t, ht, hct⟩
          · exact Or.inl h
          · exact Or.inr ⟨t, List.mem_cons_of_mem s ht, hct⟩

/-- Unfolding lemma for `normStack` on a cons. -/
theorem normStack_cons (abs : Bool) (stack : List (List Char))
    (seg : List Char) (rest : List (List Char)) :
    normStack abs stack (seg :: rest) =
      if seg = ([] : List Char) ∨ seg = dotSeg then normStack abs stack rest
      else if seg = dotDotSeg then
        match stack with
        | top :: stk =>
          if top = dotDotSeg then normStack abs (seg :: top :: stk) rest
          else normStack abs stk rest
        | [] => if abs then normStack abs [] rest else normStack abs [dotDotSeg] rest
      else normStack abs (seg :: stack) rest := rfl

theorem normStack_append_good (abs : Bool) {g : List Char}
    (h1 : g ≠ []) (h2 : g ≠ dotSeg) (h3 : g ≠ dotDotSeg) :
    ∀ (segs : List (List Char)) (stack : List (List Char)),
      normStack abs stack (segs ++ [g]) = g :: normStack abs stack segs := by
  intro segs
  induction segs with
  | nil =>
    intro stack
    rw [List.nil_append, normStack_cons, if_neg (by simp [h1, h2]), if_neg h3]
    rfl
  | cons seg rest ih =>
    intro stack
    rw [List.cons_append, normStack_cons, normStack_cons]
    by_cases he : seg = ([] : List Char) ∨ seg = dotSeg
    · rw [if_pos he, if_pos he, ih stack]
    · rw [if_neg he, if_neg he]
      by_cases hdd : seg = dotDotSeg
      · rw [if_pos hdd, if_pos hdd]
        cases stack with
        | nil =>
          cases abs with
          | false => simp only [Bool.false_eq_true, if_false]; exact ih [dotDotSeg]
          | true => simp only [if_true]; exact ih []
        | cons top stk =>
          dsimp only
          by_cases ht : top = dotDotSeg
          · rw [if_pos ht, if_pos ht]; exact ih (seg :: top :: stk)
          · rw [if_neg ht, if_neg ht]; exact ih stk
      · rw [if_neg hdd, if_neg hdd]; exact ih (seg :: stack)

/-- One segment of the normalized stack: nonempty, not `"."`, no slash. -/
def SegOk (s : List Char) : Prop := s ≠ [] ∧ s ≠ dotSeg ∧ '/' ∉ s

theorem segOk_dotDot : SegOk dotDotSeg := by
  refine ⟨by simp [dotDotSeg], by simp [dotDotSeg, dotSeg], by simp [dotDotSeg]⟩

theorem normStack_segOk (abs : Bool) :
    ∀ (segs stack : List (List Char)),
      (∀ s ∈ stack, SegOk s) → (∀ s ∈ segs, '/' ∉ s) →
      ∀ s ∈ normStack abs stack segs, SegOk s := by
  intro segs
  induction segs with
  | nil => intro stack hstack _ s hs; exact hstack s hs
  | cons seg rest ih =>
    intro stack hstack hsegs s hs
    have hrest : ∀ t ∈ rest, '/' ∉ t := fun t ht => hsegs t (List.mem_cons_of_mem seg ht)
    rw [normStack_cons] at hs
    by_cases he : seg = ([] : List Char) ∨ seg = dotSeg
    · rw [if_pos he] at hs; exact ih stack hstack hrest s hs
    · rw [if_neg he] at hs
      by_cases hdd : seg = dotDotSeg
      · rw [if_pos hdd] at hs
        cases stack with
        | nil =>
          cases abs with
          | false =>
            simp only [Bool.false_eq_true, if_false] at hs
            refine ih [dotDotSeg] ?_ hrest s hs
            intro t ht
            rcases List.mem_cons.mp ht with rfl | h0
            · exact segOk_dotDot
            · cases h0
          | true =>
            simp only [if_true] at hs
            exact ih [] (by intro t ht; cases ht) hrest s hs
        | cons top stk =>
          dsimp only at hs
          have htop : SegOk top := hstack top (List.mem_cons_self top stk)
          have hstk : ∀ t ∈ stk, SegOk t := fun t ht => hstack t (List.mem_cons_of_mem top ht)
          by_cases ht : top = dotDotSeg
          · rw [if_pos ht] at hs
            refine ih (seg :: top :: stk) ?_ hrest s hs
            intro t htm
            rcases List.mem_cons.mp htm with rfl | htm'
            · exact hdd ▸ segOk_dotDot
            · rcases List.mem_cons.mp htm' with rfl | htm''
              · exact htop
              · exact hstk t htm''
          · rw [if_neg ht] at hs
            exact ih stk hstk hrest s hs
      · rw [if_neg hdd] at hs
        refine ih (seg :: stack) ?_ hrest s hs
        intro t htm
        rcases List.mem_cons.mp htm with rfl | htm'
        · push_neg at he
          exact ⟨he.1, he.2, hsegs t (List.mem_cons_self t rest)⟩
        · exact hstack t htm'

/-- The stack keeps every `".."` segment at its bottom: it always splits as
non-`".."` segments (most recent first) over `".."` segments. -/
def StackShape (stack : List (List Char)) : Prop :=
  ∃ gs ds, stack = gs ++ ds ∧ (∀ s ∈ gs, s ≠ dotDotSeg) ∧ (∀ s ∈ ds, s = dotDotSeg)

theorem normStack_shape (abs : Bool) :
    ∀ (segs stack : List (List Char)), StackShape stack →
      StackShape (normStack abs stack segs) := by
  intro segs
  induction segs with
  | nil => intro stack h; exact h
  | cons seg rest ih =>
    intro stack hshape
    rw [normStack_cons]
    by_cases he : seg = ([] : List Char) ∨ seg = dotSeg
    · rw [if_pos he]; exact ih stack hshape
    · rw [if_neg he]
      by_cases hdd : seg = dotDotSeg
      · rw [if_pos hdd]
        cases stack with
        | nil =>
          cases abs with
          | false =>
            simp only [Bool.false_eq_true, if_false]
            refine ih [dotDotSeg] ⟨[], [dotDotSeg], rfl, by simp, by simp⟩
          | true =>
            simp only [if_true]
            exact ih [] ⟨[], [], rfl, by simp, by simp⟩
        | cons top stk =>
          dsimp only
          obtain ⟨gs, ds, heq, hgs, hds⟩ := hshape
          by_cases ht : top = dotDotSeg
          · rw [if_pos ht]
            have hgs0 : gs = [] := by
              cases gs with
              | nil => rfl
              | cons g gs' =>
                exfalso
                have hcg : top = g := by
                  rw [List.cons_append] at heq
                  exact (List.cons_eq_cons.mp heq).1
                exact hgs g (List.mem_cons_self g gs') (hcg ▸ ht)
            subst hgs0
            rw [List.nil_append] at heq
            refine ih (seg :: top :: stk) ⟨[], seg :: top :: stk, rfl, by simp, ?_⟩
            intro t htm
            rcases List.mem_cons.mp htm with rfl | htm'
            · exact hdd
            · rcases List.mem_cons.mp htm' with rfl | htm''
              · exact ht
              · exact hds t (heq ▸ List.mem_cons_of_mem top htm'')
          · rw [if_neg ht]
            cases gs with
            | nil =>
              exfalso
              rw [List.nil_append] at heq
              exact ht (hds top (heq ▸ List.mem_cons_self top stk))
            | cons g gs' =>
              rw [List.cons_append] at heq
              injection heq with h1 h2
              exact ih stk ⟨gs', ds, h2, fun t htm => hgs t (List.mem_cons_of_mem g htm), hds⟩
      · rw [if_neg hdd]
        obtain ⟨gs, ds, heq, hgs, hds⟩ := hshape
        refine ih (seg :: stack) ⟨seg :: gs, ds, by rw [heq, List.cons_append], ?_, hds⟩
        intro t htm
        rcases List.mem_cons.mp htm with rfl | htm'
        · exact hdd
        · exact hgs t htm'

theorem normStack_goods (goods : List (List Char))
    (hg : ∀ s ∈ goods, s ≠ [] ∧ s ≠ dotSeg ∧ s ≠ dotDotSeg) :
    ∀ stack, normStack false stack goods = goods.reverse ++ stack := by
  induction goods with
  | nil => intro stack; simp [normStack]
  | cons g rest ih =>
    intro stack
    obtain ⟨h1, h2, h3⟩ := hg g (List.mem_cons_self g rest)
    rw [normStack_cons, if_neg (by simp [h1, h2]), if_neg h3,
      ih (fun s hs => hg s (List.mem_cons_of_mem g hs)) (g :: stack)]
    simp

theorem normStack_reprocess (goods : List (List Char))
    (hg : ∀ s ∈ goods, s ≠ [] ∧ s ≠ dotSeg ∧ s ≠ dotDotSeg) :
    ∀ (k : Nat) (stack : List (List Char)), (∀ s ∈ stack, s = dotDotSeg) →
      normStack false stack (List.replicate k dotDotSeg ++ goods) =
        goods.reverse ++ List.replicate k dotDotSeg ++ stack := by
  intro k
  induction k with
  | zero =>
    intro stack _
    rw [List.replicate_zero, List.nil_append, normStack_goods goods hg stack]
    simp
  | succ k ih =>
    intro stack hstack
    rw [List.replicate_succ, List.cons_append, normStack_cons,
      if_neg (by simp [dotDotSeg, dotSeg]), if_pos rfl]
    have hflip : List.replicate k dotDotSeg ++ [dotDotSeg] =
        dotDotSeg :: List.replicate k dotDotSeg := by
      rw [← List.replicate_succ' k, List.replicate_succ]
    cases stack with
    | nil =>
      simp only [Bool.false_eq_true, if_false]
      rw [ih [dotDotSeg] ?hone]
      · rw [List.append_assoc, List.append_assoc, hflip]
        simp
      case hone =>
        intro s hs
        rcases List.mem_cons.mp hs with rfl | h0
        · rfl
        · cases h0
    | cons top stk =>
      dsimp only
      have htop : top = dotDotSeg := hstack top (List.mem_cons_self top stk)
      rw [if_pos htop]
      rw [ih (dotDotSeg :: top :: stk) ?hall]
      · rw [htop, List.append_assoc, List.append_assoc,
          List.append_cons (List.replicate k dotDotSeg) dotDotSeg (dotDotSeg :: stk),
          hflip]
      case hall =>
        intro s hs
        rcases List.mem_cons.mp hs with rfl | hs'
        · rfl
        · rcases List.mem_cons.mp hs' with rfl | hs''
          · exact htop
          · exact hstack s (List.mem_cons_of_mem top hs'')

theorem bs_not_mem_backslashToSlash (l : List Char) :
    '\\' ∉ backslashToSlash l := by
  intro h
  rcases List.mem_map.mp h with ⟨a, -, ha⟩
  by_cases haa : a = '\\' <;> simp [haa] at ha

theorem backslashToSlash_id (l : List Char) (h : '\\' ∉ l) :
    backslashToSlash l = l := by
  induction l with
  | nil => rfl
  | cons c rest ih =>
    have hc : c ≠ '\\' := fun hh => h (hh ▸ List.mem_cons_self c rest)
    have hr : '\\' ∉ rest := fun hh => h (List.mem_cons_of_mem c hh)
    simp [backslashToSlash, hc] at ih ⊢
    exact ih hr

theorem normStack_mem (abs : Bool) :
    ∀ (segs stack : List (List Char)) (s : List Char),
      s ∈ normStack abs stack segs → s ∈ stack ∨ s ∈ segs ∨ s = dotDotSeg := by
  intro segs
  induction segs with
  | nil => intro stack s hs; exact Or.inl hs
  | cons seg rest ih =>
    intro stack s hs
    rw [normStack_cons] at hs
    by_cases he : seg = ([] : List Char) ∨ seg = dotSeg
    · rw [if_pos he] at hs
      rcases ih stack s hs with h | h | h
      · exact Or.inl h
      · exact Or.inr (Or.inl (List.mem_cons_of_mem seg h))
      · exact Or.inr (Or.inr h)
    · rw [if_neg he] at hs
      by_cases hdd : seg = dotDotSeg
      · rw [if_pos hdd] at hs
        cases stack with
        | nil =>
          cases abs with
          | false =>
            simp only [Bool.false_eq_true, if_false] at hs
            rcases ih [dotDotSeg] s hs with h | h | h
            · rcases List.mem_cons.mp h with rfl | h0
              · exact Or.inr (Or.inr rfl)
              · cases h0
            · exact Or.inr (Or.inl (List.mem_cons_of_mem seg h))
            · exact Or.inr (Or.inr h)
          | true =>
            simp only [if_true] at hs
            rcases ih [] s hs with h | h | h
            · cases h
            · exact Or.inr (Or.inl (List.mem_cons_of_mem seg h))
            · exact Or.inr (Or.inr h)
        | cons top stk =>
          dsimp only at hs
          by_cases ht : top = dotDotSeg
          · rw [if_pos ht] at hs
            rcases ih (seg :: top :: stk) s hs with h | h | h
            · rcases List.mem_cons.mp h with rfl | h0
              · exact Or.inr (Or.inr hdd)
              · exact Or.inl h0
            · exact Or.inr (Or.inl (List.mem_cons_of_mem seg h))
            · exact Or.inr (Or.inr h)
          · rw [if_neg ht] at hs
            rcases ih stk s hs with h | h | h
            · exact Or.inl (List.mem_cons_of_mem top h)
            · exact Or.inr (Or.inl (List.mem_cons_of_mem seg h))
            · exact Or.inr (Or.inr h)
      · rw [if_neg hdd] at hs
        rcases ih (seg :: stack) s hs with h | h | h
        · rcases List.mem_cons.mp h with rfl | h0
          · exact Or.inr (Or.inl (List.mem_cons_self s rest))
          · exact Or.inl h0
        · exact Or.inr (Or.inl (List.mem_cons_of_mem seg h))
        · exact Or.inr (Or.inr h)


/-! ## Claim C10: output form and idempotence -/

theorem chEndsWith_iff (l s : List Char) : chEndsWith l s = true ↔ s <:+ l := by
  simp [chEndsWith, List.isSuffixOf_iff_suffix]

theorem chStartsWith_iff (l p : List Char) : chStartsWith l p = true ↔ p <+: l := by
  constructor
  · intro h; exact List.isPrefixOf_iff_prefix.mp h
  · intro h; exact List.isPrefixOf_iff_prefix.mpr h

theorem chStartsWith_dot_slash (t : List Char) :
    chStartsWith ('.' :: t) ['/'] = false := by
  simp [chStartsWith, List.isPrefixOf]

theorem intercalate_not_dotSlash {e0 : List Char} (hok : SegOk e0)
    (rest : List (List Char)) :
    ¬ dotSlash <+: intercalateSlash (e0 :: rest) := by
  obtain ⟨hne, hdot, hfree⟩ := hok
  intro hpre
  have he0 : e0 <+: intercalateSlash (e0 :: rest) := front_intercalate e0 rest
  rcases Nat.lt_or_ge e0.length 2 with hlt | hge
  · have hp : e0 <+: dotSlash :=
      List.prefix_of_prefix_length_le he0 hpre (by simp [dotSlash]; omega)
    obtain ⟨t, ht⟩ := hp
    cases e0 with
    | nil => exact hne rfl
    | cons c1 etail =>
      cases etail with
      | nil =>
        have hc : c1 = '.' := by
          have h0 := congrArg (fun l => l.head?) ht
          simpa [dotSlash] using h0
        exact hdot (by rw [hc]; rfl)
      | cons c2 etail2 =>
        simp only [List.length_cons] at hlt
        omega
  · have hp : dotSlash <+: e0 :=
      List.prefix_of_prefix_length_le hpre he0 (by simp [dotSlash]; omega)
    obtain ⟨t, ht⟩ := hp
    apply hfree
    rw [← ht]
    simp [dotSlash]

theorem intercalate_not_dotDotSlash {e0 : List Char} (hok : SegOk e0)
    (hnd : e0 ≠ dotDotSeg) (rest : List (List Char)) :
    ¬ dotDotSlash <+: intercalateSlash (e0 :: rest) := by
  obtain ⟨hne, hdot, hfree⟩ := hok
  intro hpre
  have he0 : e0 <+: intercalateSlash (e0 :: rest) := front_intercalate e0 rest
  rcases Nat.lt_or_ge e0.length 3 with hlt | hge
  · have hp : e0 <+: dotDotSlash :=
      List.prefix_of_prefix_length_le he0 hpre (by simp [dotDotSlash]; omega)
    obtain ⟨t, ht⟩ := hp
    cases e0 with
    | nil => exact hne rfl
    | cons c1 etail =>
      cases etail with
      | nil =>
        have hc : c1 = '.' := by
          have h0 := congrArg (fun l => l.head?) ht
          simpa [dotDotSlash] using h0
        exact hdot (by rw [hc]; rfl)
      | cons c2 etail2 =>
        cases etail2 with
        | nil =>
          have h12 : c1 = '.' ∧ c2 = '.' := by
            simp [dotDotSlash] at ht
            exact ⟨ht.1, ht.2.1⟩
          exact hnd (by rw [h12.1, h12.2]; rfl)
        | cons c3 etail3 =>
          simp only [List.length_cons] at hlt
          omega
  · have hp : dotDotSlash <+: e0 :=
      List.prefix_of_prefix_length_le hpre he0 (by simp [dotDotSlash]; omega)
    obtain ⟨t, ht⟩ := hp
    apply hfree
    rw [← ht]
    simp [dotDotSlash]

theorem splitSlash_dotSlash_cons (l : List Char) :
    splitSlash ('.' :: '/' :: l) = dotSeg :: splitSlash l := by
  obtain ⟨s, ss, hsplit, hcons⟩ := splitSlash_cons_eq '/' l
  have h1 : splitSlash ('/' :: l) = [] :: s :: ss := by rw [hcons, if_pos rfl]
  obtain ⟨s2, ss2, hsplit2, hcons2⟩ := splitSlash_cons_eq '.' ('/' :: l)
  rw [h1] at hsplit2
  obtain ⟨h3, h4⟩ := List.cons_eq_cons.mp hsplit2
  rw [hcons2, if_neg (by decide), ← h3, ← h4, hsplit]
  rfl

theorem normStack_dot (abs : Bool) (stack segs : List (List Char)) :
    normStack abs stack (dotSeg :: segs) = normStack abs stack segs := by
  rw [normStack_cons, if_pos (Or.inr rfl)]

theorem pathNormChars_eq (l : List Char) :
    pathNormChars l = assembleNorm (chStartsWith l ['/'])
      ((normStack (chStartsWith l ['/']) [] (splitSlash l)).reverse) := rfl

theorem assembleNorm_rel (sr : List (List Char))
    (h : intercalateSlash sr ≠ []) :
    assembleNorm false sr = intercalateSlash sr := by
  unfold assembleNorm
  simp only [Bool.false_eq_true, if_false]
  rw [if_neg (by simpa [List.isEmpty_iff] using h)]

theorem assembleNorm_suffix {sr : List (List Char)}
    (h : wrenExt <:+ intercalateSlash sr) (abs : Bool) :
    wrenExt <:+ assembleNorm abs sr := by
  have hne : intercalateSlash sr ≠ [] := by
    intro h0
    have hl := h.length_le
    rw [h0] at hl
    simp [wrenExt] at hl
  unfold assembleNorm
  cases abs with
  | false =>
    simp only [Bool.false_eq_true, if_false]
    rw [if_neg (by simpa [List.isEmpty_iff] using hne)]
    exact h
  | true =>
    simp only [if_true, List.isEmpty_cons, if_false]
    exact h.trans ( List.suffix_cons '/' _)

theorem pathNorm_keeps_ext {l : List Char} (h : wrenExt <:+ l) :
    wrenExt <:+ pathNormChars l := by
  obtain ⟨segs0, hsegs⟩ := splitSlash_decomp l
  have hg : wrenExt <:+ lastRun l := suffix_lastRun h
  obtain ⟨h1, h2, h3⟩ := ext_good hg
  rw [pathNormChars_eq, hsegs,
    normStack_append_good (chStartsWith l ['/']) h1 h2 h3 segs0 [],
    List.reverse_cons]
  exact assembleNorm_suffix (hg.trans (suffix_intercalate_last _ _)) _

theorem pathNorm_no_bs {l : List Char} (h : '\\' ∉ l) :
    '\\' ∉ pathNormChars l := by
  intro hmem
  rw [pathNormChars_eq] at hmem
  unfold assembleNorm at hmem
  set sr := (normStack (chStartsWith l ['/']) [] (splitSlash l)).reverse with hsr
  have hjoin : '\\' ∉ intercalateSlash sr := by
    intro hj
    rcases mem_intercalate sr '\\' hj with h0 | ⟨s, hsmem, hcs⟩
    · cases h0
    · have hsmem2 : s ∈ normStack (chStartsWith l ['/']) [] (splitSlash l) :=
        List.mem_reverse.mp hsmem
      rcases normStack_mem _ _ _ _ hsmem2 with h0 | h0 | h0
      · cases h0
      · exact h (chars_of_mem_splitSlash l s h0 '\\' hcs)
      · rw [h0] at hcs
        simp [dotDotSeg] at hcs
  by_cases hcore : (if chStartsWith l ['/'] = true
      then '/' :: intercalateSlash sr else intercalateSlash sr).isEmpty = true
  · rw [if_pos hcore] at hmem
    simp at hmem
  · rw [if_neg hcore] at hmem
    by_cases habs : chStartsWith l ['/'] = true
    · rw [if_pos habs] at hmem
      rcases List.mem_cons.mp hmem with h0 | h0
      · cases h0
      · exact hjoin h0
    · rw [if_neg habs] at hmem
      exact hjoin hmem

theorem pathNorm_output_form {l : List Char}
    (hrel : chStartsWith l ['/'] = false) (hext : wrenExt <:+ l) :
    ∃ (k : Nat) (goods : List (List Char)),
      pathNormChars l = intercalateSlash (List.replicate k dotDotSeg ++ goods) ∧
      (∀ s ∈ goods, SegOk s ∧ s ≠ dotDotSeg) ∧ goods ≠ [] := by
  obtain ⟨segs0, hsegs⟩ := splitSlash_decomp l
  have hg : wrenExt <:+ lastRun l := suffix_lastRun hext
  obtain ⟨h1, h2, h3⟩ := ext_good hg
  have hS : normStack false [] (splitSlash l) =
      lastRun l :: normStack false [] segs0 := by
    rw [hsegs]; exact normStack_append_good false h1 h2 h3 segs0 []
  have hok : ∀ s ∈ normStack false [] (splitSlash l), SegOk s :=
    normStack_segOk false (splitSlash l) [] (by intro t ht; cases ht)
      (no_slash_of_mem_splitSlash l)
  obtain ⟨gs, ds, hsd, hgs, hds⟩ :=
    normStack_shape false (splitSlash l) [] ⟨[], [], rfl, by simp, by simp⟩
  have hdrev : ds.reverse = List.replicate ds.length dotDotSeg := by
    have h0 : ds.reverse = List.replicate ds.reverse.length dotDotSeg :=
      List.eq_replicate_of_mem (fun b hb => hds b (List.mem_reverse.mp hb))
    simpa using h0
  have hjoin_ne : intercalateSlash
      ((normStack false [] (splitSlash l)).reverse) ≠ [] := by
    rw [hS, List.reverse_cons]
    intro h0
    have hl := (hg.trans
      (suffix_intercalate_last (normStack false [] segs0).reverse (lastRun l))).length_le
    rw [h0] at hl
    simp [wrenExt] at hl
  refine ⟨ds.length, gs.reverse, ?_, ?_, ?_⟩
  · rw [pathNormChars_eq, hrel]
    have hrw : (normStack false [] (splitSlash l)).reverse =
        List.replicate ds.length dotDotSeg ++ gs.reverse := by
      rw [hsd, List.reverse_append, hdrev]
    rw [hrw] at hjoin_ne ⊢
    exact assembleNorm_rel _ hjoin_ne
  · intro s hsm
    have hsm2 : s ∈ gs := List.mem_reverse.mp hsm
    have hmem : s ∈ normStack false [] (splitSlash l) := by
      rw [hsd]; exact List.mem_append.mpr (Or.inl hsm2)
    exact ⟨hok s hmem, hgs s hsm2⟩
  · intro h0
    have hgs0 : gs = [] := by simpa using congrArg List.reverse h0
    rw [hgs0, List.nil_append] at hsd
    have hmem : lastRun l ∈ ds := by
      rw [← hsd, hS]; exact List.mem_cons_self _ _
    exact h3 (hds _ hmem)

theorem extWren_ext (l : List Char) : wrenExt <:+ extWren l := by
  unfold extWren
  by_cases h : chEndsWith l wrenExt = true
  · rw [if_pos h]; exact (chEndsWith_iff _ _).mp h
  · rw [if_neg h]; exact List.suffix_append l wrenExt

theorem relMark_ext {l : List Char} (h : wrenExt <:+ l) :
    wrenExt <:+ relMark l := by
  unfold relMark
  by_cases hc : chStartsWith l dotSlash = true ∨ chStartsWith l dotDotSlash = true
  · rw [if_pos hc]; exact h
  · rw [if_neg hc]
    exact (h.trans ( List.suffix_cons '/' l)).trans ( List.suffix_cons '.' _)

theorem relMark_head (l : List Char) : ∃ t, relMark l = '.' :: t := by
  unfold relMark
  by_cases hc : chStartsWith l dotSlash = true ∨ chStartsWith l dotDotSlash = true
  · rw [if_pos hc]
    rcases hc with hc | hc
    · obtain ⟨t, ht⟩ := (chStartsWith_iff _ _).mp hc
      exact ⟨'/' :: t, by rw [← ht]; rfl⟩
    · obtain ⟨t, ht⟩ := (chStartsWith_iff _ _).mp hc
      exact ⟨'.' :: '/' :: t, by rw [← ht]; rfl⟩
  · rw [if_neg hc]
    exact ⟨'/' :: l, rfl⟩

theorem normalizeChars_ext (v : List Char) : wrenExt <:+ normalizeChars v := by
  unfold normalizeChars
  apply pathNorm_keeps_ext
  have hpre : wrenExt <:+ relMark (extWren (jsTrimChars v)) :=
    relMark_ext (extWren_ext _)
  have hm := hpre.map (fun c => if c = '\\' then '/' else c)
  have hwe : (wrenExt.map fun c => if c = '\\' then '/' else c) = wrenExt := by decide
  rw [hwe] at hm
  exact hm

theorem normalizeChars_ne_nil (v : List Char) : normalizeChars v ≠ [] := by
  intro h0
  have hl := (normalizeChars_ext v).length_le
  rw [h0] at hl
  simp [wrenExt] at hl

theorem normalizeChars_idem (v : List Char)
    (hstable : jsTrimChars (normalizeChars v) = normalizeChars v) :
    normalizeChars (normalizeChars v) = normalizeChars v := by
  obtain ⟨tpre, htpre⟩ := relMark_head (extWren (jsTrimChars v))
  have hrel : chStartsWith (backslashToSlash (relMark (extWren (jsTrimChars v)))) ['/'] = false := by
    rw [htpre]
    show chStartsWith ('.' :: tpre.map _) ['/'] = false
    exact chStartsWith_dot_slash _
  have hextin : wrenExt <:+ backslashToSlash (relMark (extWren (jsTrimChars v))) := by
    have hpre : wrenExt <:+ relMark (extWren (jsTrimChars v)) :=
      relMark_ext (extWren_ext _)
    have hm := hpre.map (fun c => if c = '\\' then '/' else c)
    have hwe : (wrenExt.map fun c => if c = '\\' then '/' else c) = wrenExt := by decide
    rw [hwe] at hm
    exact hm
  obtain ⟨k, goods, hform, hgood, hgne⟩ := pathNorm_output_form hrel hextin
  have hoform : normalizeChars v =
      intercalateSlash (List.replicate k dotDotSeg ++ goods) := hform
  have hext : wrenExt <:+ normalizeChars v := normalizeChars_ext v
  have hone : normalizeChars v ≠ [] := normalizeChars_ne_nil v
  have hbs : '\\' ∉ normalizeChars v :=
    pathNorm_no_bs (bs_not_mem_backslashToSlash _)
  have hgood3 : ∀ s ∈ goods, s ≠ [] ∧ s ≠ dotSeg ∧ s ≠ dotDotSeg := by
    intro s hs
    exact ⟨(hgood s hs).1.1, (hgood s hs).1.2.1, (hgood s hs).2⟩
  have hfree : ∀ s ∈ List.replicate k dotDotSeg ++ goods, '/' ∉ s := by
    intro s hs
    rcases List.mem_append.mp hs with h0 | h0
    · rw [List.eq_of_mem_replicate h0]
      simp [dotDotSeg]
    · exact ((hgood s h0).1).2.2
  have hsplit_o : splitSlash (normalizeChars v) =
      List.replicate k dotDotSeg ++ goods := by
    rw [hoform]
    refine splitSlash_intercalate _ ?_ hfree
    intro h0
    exact hgne (List.append_eq_nil.mp h0).2
  show pathNormChars (backslashToSlash (relMark (extWren
    (jsTrimChars (normalizeChars v))))) = normalizeChars v
  rw [hstable]
  rw [show extWren (normalizeChars v) = normalizeChars v from by
    unfold extWren
    rw [if_pos ((chEndsWith_iff _ _).mpr hext)]]
  cases k with
  | zero =>
    rw [List.replicate_zero, List.nil_append] at hoform hsplit_o
    obtain ⟨g0, gs, rfl⟩ : ∃ g0 gs, goods = g0 :: gs := by
      cases goods with
      | nil => exact absurd rfl hgne
      | cons a b => exact ⟨a, b, rfl⟩
    have hok0 : SegOk g0 ∧ g0 ≠ dotDotSeg := hgood g0 (List.mem_cons_self g0 gs)
    have hmark : relMark (normalizeChars v) = '.' :: '/' :: normalizeChars v := by
      unfold relMark
      rw [if_neg]
      intro hc
      rcases hc with hc | hc
      · exact intercalate_not_dotSlash hok0.1 gs
          (hoform ▸ (chStartsWith_iff _ _).mp hc)
      · exact intercalate_not_dotDotSlash hok0.1 hok0.2 gs
          (hoform ▸ (chStartsWith_iff _ _).mp hc)
    rw [hmark]
    have hbs2 : backslashToSlash ('.' :: '/' :: normalizeChars v) =
        '.' :: '/' :: normalizeChars v := by
      apply backslashToSlash_id
      intro hmem
      rcases List.mem_cons.mp hmem with h0 | h0
      · cases h0
      · rcases List.mem_cons.mp h0 with h1 | h1
        · cases h1
        · exact hbs h1
    rw [hbs2, pathNormChars_eq, chStartsWith_dot_slash,
      splitSlash_dotSlash_cons, normStack_dot, hsplit_o,
      normStack_goods _ hgood3 []]
    rw [List.append_nil, List.reverse_reverse]
    rw [assembleNorm_rel _ (hoform ▸ hone)]
    exact hoform.symm
  | succ kp =>
    have hrep : List.replicate (kp + 1) dotDotSeg ++ goods =
        dotDotSeg :: (List.replicate kp dotDotSeg ++ goods) := by
      rw [List.replicate_succ, List.cons_append]
    obtain ⟨r, rs, hrs⟩ : ∃ r rs, List.replicate kp dotDotSeg ++ goods = r :: rs := by
      rcases hq : List.replicate kp dotDotSeg ++ goods with _ | ⟨a, b⟩
      · exact absurd (List.append_eq_nil.mp hq).2 hgne
      · exact ⟨a, b, rfl⟩
    have hocons : normalizeChars v = '.' :: '.' :: '/' :: intercalateSlash (r :: rs) := by
      rw [hoform, hrep, hrs, intercalate_cons₂]
      rfl
    have hmark : relMark (normalizeChars v) = normalizeChars v := by
      unfold relMark
      rw [if_pos]
      right
      rw [chStartsWith_iff, hocons]
      exact ⟨intercalateSlash (r :: rs), rfl⟩
    rw [hmark, backslashToSlash_id _ hbs, pathNormChars_eq]
    rw [show chStartsWith (normalizeChars v) ['/'] = false from by
      rw [hocons]; exact chStartsWith_dot_slash _]
    rw [hsplit_o, normStack_reprocess goods hgood3 (kp + 1) [] (by intro s hs; cases hs)]
    rw [List.append_nil, List.reverse_append, List.reverse_reverse,
      List.reverse_replicate]
    rw [assembleNorm_rel _ (hoform ▸ hone)]
    exact hoform.symm


/-- Claim C10 counterexample: `normalizeImportPath` is not idempotent.  The
input `"./ x"` already carries a relative marker, so its embedded space
survives trimming and normalization strips only the `"./"`, producing
`" x.wren"`; re-normalizing first trims that leading space, yielding
`"x.wren"`. -/
theorem normalizeImportPath_not_idempotent :
    normalizeImportPath (normalizeImportPath "./ x") ≠ normalizeImportPath "./ x" := by
  decide

/-- Claim C10 (amended): every `normalizeImportPath` output ends in
`".wren"`, and normalization is idempotent on every input whose normalized
form is stable under whitespace trimming (re-normalizing such an output
does not stack an additional relative prefix); idempotence fails only for
inputs whose normalized form begins with whitespace, as in the
counterexample. -/
theorem normalizeImportPath_ends_wren_and_idem (s : String) :
    chEndsWith (normalizeImportPath s).data wrenExt = true ∧
    (jsTrim (normalizeImportPath s) = normalizeImportPath s →
      normalizeImportPath (normalizeImportPath s) = normalizeImportPath s) := by
  constructor
  · exact (chEndsWith_iff _ _).mpr (normalizeChars_ext s.data)
  · intro hstable
    have hchars : jsTrimChars (normalizeChars s.data) = normalizeChars s.data := by
      have h0 := congrArg String.data hstable
      exact h0
    exact congrArg String.mk (normalizeChars_idem s.data hchars)

/-- Witness for C10's amended idempotence clause at the input `"b"`. -/
theorem normalizeImportPath_ends_wren_and_idem_witness :
    jsTrim (normalizeImportPath "b") = normalizeImportPath "b" ∧
    normalizeImportPath (normalizeImportPath "b") = normalizeImportPath "b" :=
  ⟨by decide, (normalizeImportPath_ends_wren_and_idem "b").2 (by decide)⟩


/-! ## Claim C2: document cache contract -/

/-- Claim C2: querying the analysis while the cached entry's stored index
version equals the document's current version returns the identical
cached object with the cache untouched and without invoking the analyzer
(the result does not depend on the analyzer function); when no matching
entry exists or the versions differ, the analyzer is re-invoked and the
new result is stored under the document's path and returned. -/
theorem analyzeAndCache_contract
    (f g : SrcDocument → CachedAnalysis)
    (cache : List (String × CachedAnalysis)) (doc : SrcDocument) :
    (∀ c, jsGet cache doc.uri.fsPath = some c → c.index.version = doc.version →
      analyzeAndCache f cache doc = (c, cache) ∧
      analyzeAndCache g cache doc = analyzeAndCache f cache doc) ∧
    ((∀ c, jsGet cache doc.uri.fsPath = some c → c.index.version ≠ doc.version) →
      analyzeAndCache f cache doc =
        (f doc, jsSet cache doc.uri.fsPath (f doc))) := by
  constructor
  · intro c hc hv
    constructor
    · unfold analyzeAndCache
      dsimp only
      rw [hc]
      simp [hv]
    · unfold analyzeAndCache
      dsimp only
      rw [hc]
      simp [hv]
  · intro hmiss
    unfold analyzeAndCache
    dsimp only
    rcases hget : jsGet cache doc.uri.fsPath with _ | c
    · rfl
    · have hne := hmiss c hget
      simp [hne]

/-- Witness for C2 at a concrete cache: a version-1 hit is served from the
cache, and bumping the document to version 2 stores and returns a fresh
analysis. -/
theorem analyzeAndCache_contract_witness :
    ((jsGet exCache2 exDoc2.uri.fsPath = some exEntry2 ∧
        exEntry2.index.version = exDoc2.version) ∧
      analyzeAndCache exAnalyze2 exCache2 exDoc2 = (exEntry2, exCache2)) ∧
    ((∀ c, jsGet exCache2 exDoc2b.uri.fsPath = some c →
        c.index.version ≠ exDoc2b.version) ∧
      analyzeAndCache exAnalyze2 exCache2 exDoc2b =
        (exAnalyze2 exDoc2b, jsSet exCache2 exDoc2b.uri.fsPath (exAnalyze2 exDoc2b))) := by
  have hhit := (analyzeAndCache_contract exAnalyze2 exAnalyze2 exCache2 exDoc2).1
    exEntry2 rfl rfl
  have hmiss' : ∀ c, jsGet exCache2 exDoc2b.uri.fsPath = some c →
      c.index.version ≠ exDoc2b.version := by
    intro c hc
    have hc' : c = exEntry2 := by
      have h0 : jsGet exCache2 exDoc2b.uri.fsPath = some exEntry2 := rfl
      rw [h0] at hc
      exact (Option.some.injEq _ _ ▸ hc).symm
    rw [hc']
    decide
  have hmiss := (analyzeAndCache_contract exAnalyze2 exAnalyze2 exCache2 exDoc2b).2 hmiss'
  exact ⟨⟨⟨rfl, rfl⟩, hhit.1⟩, ⟨hmiss', hmiss⟩⟩


/-! ## Claim C8: candidate resolution -/

theorem insertionDedup_spec (l : List String) :
    ∀ acc : List String,
      (∀ x, x ∈ l.foldl (fun acc s => if s ∈ acc then acc else acc ++ [s]) acc ↔
        x ∈ acc ∨ x ∈ l) ∧
      (acc.Nodup →
        (l.foldl (fun acc s => if s ∈ acc then acc else acc ++ [s]) acc).Nodup) := by
  induction l with
  | nil => intro acc; simp
  | cons s rest ih =>
    intro acc
    constructor
    · intro x
      by_cases hs : s ∈ acc
      · rw [List.foldl_cons, if_pos hs, (ih acc).1 x]
        constructor
        · rintro (h | h)
          · exact Or.inl h
          · exact Or.inr (List.mem_cons_of_mem s h)
        · rintro (h | h)
          · exact Or.inl h
          · rcases List.mem_cons.mp h with rfl | h'
            · exact Or.inl hs
            · exact Or.inr h'
      · rw [List.foldl_cons, if_neg hs, (ih (acc ++ [s])).1 x]
        simp only [List.mem_append, List.mem_singleton, List.mem_cons]
        tauto
    · intro hnd
      by_cases hs : s ∈ acc
      · rw [List.foldl_cons, if_pos hs]
        exact (ih acc).2 hnd
      · rw [List.foldl_cons, if_neg hs]
        refine (ih (acc ++ [s])).2 ?_
        simp [List.nodup_append, hnd, hs]

/-- Claim C8 counterexample: with one open workspace root `"/w"`, no
additional search roots and a file in directory `"/d"`, the spec's
candidate set contains the workspace-root join `"/w/m.wren"`, but
`resolveCandidates` does not produce it. -/
theorem resolveCandidates_misses_workspace_root :
    "/w/m.wren" ∈ resolveCandidatesSpec cfg8 "/d/f.wren" "m" ∧
    "/w/m.wren" ∉ resolveCandidates cfg8 "/d/f.wren" "m" := by
  decide

/-- Claim C8 (amended): the candidate path set consists exactly of the
normalized import string joined against (a) the requesting file's own
directory and (b) every configured additional search root, with
duplicates removed (first occurrence kept); open workspace roots are not
consulted by `resolveCandidates`. -/
theorem resolveCandidates_characterization (cfg : ServiceCfg)
    (cur req c : String) :
    (c ∈ resolveCandidates cfg cur req ↔
      c = cfg.pathResolve (cfg.dirname cur) (normalizeImportPath req) ∨
      ∃ r ∈ cfg.additionalSearchRoots,
        c = cfg.pathResolve r (normalizeImportPath req)) ∧
    (resolveCandidates cfg cur req).Nodup := by
  unfold resolveCandidates insertionDedup
  constructor
  · rw [(insertionDedup_spec _ []).1 c]
    simp only [List.not_mem_nil, false_or, List.mem_cons, List.mem_map]
    constructor
    · rintro (h | ⟨r, hr, hre⟩)
      · exact Or.inl h
      · exact Or.inr ⟨r, hr, hre.symm⟩
    · rintro (h | ⟨r, hr, hre⟩)
      · exact Or.inl h
      · exact Or.inr ⟨r, hr, hre.symm⟩
  · exact (insertionDedup_spec _ []).2 List.nodup_nil

/-- Witness for C8's amended characterization at a concrete state: the
directory join is a candidate. -/
theorem resolveCandidates_characterization_witness :
    "/d/m.wren" = cfg8.pathResolve (cfg8.dirname "/d/f.wren") (normalizeImportPath "m") ∧
    "/d/m.wren" ∈ resolveCandidates cfg8 "/d/f.wren" "m" :=
  ⟨by decide,
    (resolveCandidates_characterization cfg8 "/d/f.wren" "m" "/d/m.wren").1.mpr
      (Or.inl (by decide))⟩

/-! ## Claim C5: initializer-based inference -/

/-- Claim C5 counterexample: the scope resolver's own inference maps the
initializers of `var x = 1 + 2`, `var s = "a" + "b"` and `var r = 1..10`
to no type at all (they are operator method-call nodes, not literal
nodes), not to `Num`/`String`/`Range` as the claim states. -/
theorem inferExprType_operator_counterexample :
    resolveVarType none (some exOnePlusTwo) ≠ some "Num" ∧
    resolveVarType none (some exOnePlusTwo) = none ∧
    resolveVarType none (some exStrConcat) = none ∧
    resolveVarType none (some exRange) = none := by
  refine ⟨by decide, rfl, rfl, rfl⟩

/-- Claim C5 (amended): literal initializers infer their fixed base type
(`var x = 1` gives `Num`, `var s = "a"` gives `String`), but an operator
application such as `1 + 2`, `"a" + "b"` or `1..10` is a method-call
expression shape, which the inference does not handle: any call whose
member is not `"new"` yields no type, and a declaration whose initializer
yields no type adds no entry to the locals map. -/
theorem inferExprType_literals_operators_locals
    (t op : Token) (recv : Expr) (args : Option (List Expr))
    (blk : Option Body) (hop : op.text ≠ "new") :
    inferExprType (.numExpr t) = some "Num" ∧
    inferExprType (.stringExpr t) = some "String" ∧
    inferExprType (.boolExpr t) = some "Bool" ∧
    inferExprType (.listExpr []) = some "List" ∧
    inferExprType (.mapExpr []) = some "Map" ∧
    inferExprType (.callExpr (some recv) op args blk) = none ∧
    (∀ (nm : Token) (offset : Nat) (locals : List (String × String)) (e : Expr),
      inferExprType e = none →
      collectFromStmt (.varStmt nm none (some e)) offset locals = locals) := by
  refine ⟨rfl, rfl, rfl, rfl, rfl, ?_, ?_⟩
  · show (if op.text = "new" then _ else none) = none
    rw [if_neg hop]
  · intro nm offset locals e he
    show (if nm.start < offset then _ else locals) = locals
    by_cases h : nm.start < offset
    · rw [if_pos h]
      show (match resolveVarType none (some e) with
        | some t => jsSet locals nm.text t
        | none => locals) = locals
      have : resolveVarType none (some e) = none := he
      rw [this]
    · rw [if_neg h]

/-- Witness for C5's amended clause at the `1 + 2` initializer. -/
theorem inferExprType_literals_operators_locals_witness :
    ((tok "+" 10 1).text ≠ "new" ∧
      inferExprType exOnePlusTwo = none) ∧
    collectFromStmt (.varStmt (tok "x" 4 1) none (some exOnePlusTwo)) 99 [] = [] := by
  refine ⟨⟨by decide, rfl⟩, ?_⟩
  exact (inferExprType_literals_operators_locals (tok "x" 4 1) (tok "+" 10 1)
    (.numExpr (tok "1" 8 1)) (some [.numExpr (tok "2" 12 1)]) none
    (by decide)).2.2.2.2.2.2 (tok "x" 4 1) 99 [] exOnePlusTwo rfl


/-! ## Claim C4: full walk with last-wins bindings -/

/-- Claim C4: inside an applicable class at the query offset, the scope
resolver walks every method (not just the one containing the offset) and
every nested construct — blocks, conditional branches and closure block
arguments — recording each declaration whose name token starts before the
offset; when the same name is declared twice, the binding recorded last
in traversal order is returned. -/
theorem scope_resolver_walks_all_last_wins
    (cname ck lb rb m1t m2t x1 x2 y ft : Token) (t1 t2 t3 : TypeAnnot)
    (cond : Expr) (offset : Nat)
    (hck : ck.start ≤ offset) (hrb : offset ≤ rb.start + rb.length)
    (hm1 : m1t.start ≤ offset) (hm2 : m2t.start ≤ offset)
    (hx1 : x1.start < offset) (hx2 : x2.start < offset) (hy : y.start < offset)
    (hsame : x1.text = x2.text) (hne : x2.text ≠ y.text) :
    (resolveTypeAtPosition
        (c4Module cname ck lb rb m1t m2t x1 x2 y ft t1 t2 t3 cond)
        offset).enclosingClass = some cname.text ∧
    (resolveTypeAtPosition
        (c4Module cname ck lb rb m1t m2t x1 x2 y ft t1 t2 t3 cond)
        offset).locals
      = [(x2.text, t2.name.text), (y.text, t3.name.text)] ∧
    jsGet (resolveTypeAtPosition
        (c4Module cname ck lb rb m1t m2t x1 x2 y ft t1 t2 t3 cond)
        offset).locals x1.text = some t2.name.text ∧
    jsGet (resolveTypeAtPosition
        (c4Module cname ck lb rb m1t m2t x1 x2 y ft t1 t2 t3 cond)
        offset).locals y.text = some t3.name.text := by
  have hm1n : ¬ (offset < m1t.start) := Nat.not_lt.mpr hm1
  have hm2n : ¬ (offset < m2t.start) := Nat.not_lt.mpr hm2
  simp [resolveTypeAtPosition, c4Module, c4Method1, c4Method2, resolveTopWalk,
    collectFromMethod, collectFromBody, collectFromStatements, collectFromStmt,
    collectFromExprBlockArgs, collectParams, resolveVarType, jsSet, jsGet,
    Option.orElse, hck, hrb, hm1n, hm2n, hx1, hx2, hy, hsame, hne]

/-- Witness for C4 at a concrete class with two methods declaring `x`
twice (types `Num`, then `String`) and a closure declaring `y : Bool` at
offset 90. -/
theorem scope_resolver_walks_all_last_wins_witness :
    ((tok "x" 15 1).text = (tok "x" 45 1).text ∧ (15 : Nat) < 90) ∧
    jsGet (resolveTypeAtPosition
        (c4Module (tok "C" 6 1) (tok "class" 0 5) (tok "\x7b" 8 1) (tok "\x7d" 100 1)
          (tok "m1" 10 2) (tok "m2" 40 2) (tok "x" 15 1) (tok "x" 45 1)
          (tok "y" 60 1) (tok "each" 55 4)
          ⟨tok "Num" 17 3⟩ ⟨tok "String" 47 6⟩ ⟨tok "Bool" 62 4⟩
          (.boolExpr (tok "true" 43 4)))
        90).locals (tok "y" 60 1).text
      = some (TypeAnnot.mk (tok "Bool" 62 4)).name.text :=
  ⟨⟨rfl, by decide⟩,
    (scope_resolver_walks_all_last_wins (tok "C" 6 1) (tok "class" 0 5)
      (tok "\x7b" 8 1) (tok "\x7d" 100 1) (tok "m1" 10 2) (tok "m2" 40 2)
      (tok "x" 15 1) (tok "x" 45 1) (tok "y" 60 1) (tok "each" 55 4)
      ⟨tok "Num" 17 3⟩ ⟨tok "String" 47 6⟩ ⟨tok "Bool" 62 4⟩
      (.boolExpr (tok "true" 43 4)) 90
      (by decide) (by decide) (by decide) (by decide) (by decide) (by decide)
      (by decide) rfl (by decide)).2.2.2⟩


/-! ## Claim C6: unresolved-import diagnostics -/

theorem countP_congr_eq {α : Type} (p q : α → Bool) (l : List α)
    (h : ∀ a ∈ l, p a = q a) : l.countP p = l.countP q := by
  induction l with
  | nil => rfl
  | cons a rest ih =>
    simp [List.countP_cons, h a (List.mem_cons_self a rest),
      ih (fun x hx => h x (List.mem_cons_of_mem a hx))]

theorem countP_over_filterMap {α β : Type} (f : α → Option β) (q : β → Bool)
    (l : List α) :
    (l.filterMap f).countP q = l.countP (fun a => ((f a).map q).getD false) := by
  induction l with
  | nil => rfl
  | cons a rest ih =>
    cases hfa : f a with
    | none => simp [List.filterMap_cons, hfa, List.countP_cons, ih]
    | some b => simp [List.filterMap_cons, hfa, List.countP_cons, ih]

/-- Claim C6: for a non-built-in import none of whose candidates exists,
`getDiagnostics` adds the unresolved-import warning whose range is the
recorded import range; exactly one output diagnostic carries the range
with code `unresolved-import` (given the analyzer emitted none and no
other indexed import shares the range); the recorded range is the import
path token's span; and every class statement of the same document is
still indexed. -/
theorem getDiagnostics_unresolved_import (cfg : ServiceCfg)
    (oracle : String → Bool) (doc : SrcDocument) (now : Nat)
    (imp : WrenImportSymbol)
    (hmem : imp ∈ (analyzeDocument doc now).index.imports)
    (hnb : isBuiltinModule imp.moduleName = false)
    (hfail : anyExists oracle (resolveCandidates cfg doc.uri.fsPath imp.path) = false)
    (hclean : ∀ d ∈ (analyzeDocument doc now).diagnostics, d.code ≠ "unresolved-import")
    (huniqr : ∀ i ∈ (analyzeDocument doc now).index.imports, i.range = imp.range → i = imp)
    (honce : (analyzeDocument doc now).index.imports.count imp = 1) :
    mkUnresolvedDiag imp ∈
      getDiagnostics cfg oracle (outToCached (analyzeDocument doc now)) doc.uri.fsPath ∧
    (mkUnresolvedDiag imp).range = imp.range ∧
    (mkUnresolvedDiag imp).severity = VsSeverity.warning ∧
    (getDiagnostics cfg oracle (outToCached (analyzeDocument doc now))
        doc.uri.fsPath).countP
      (fun d => d.range == imp.range && d.code == "unresolved-import") = 1 ∧
    (∃ ptok vs, Stmt.importStmt ptok vs ∈ doc.module.statements ∧
      imp.range = ⟨ptok.start, ptok.start + ptok.length⟩) ∧
    (∀ nm fk ck lb rb ms, Stmt.classStmt nm fk ck lb rb ms ∈ doc.module.statements →
      nm.text ∈ (analyzeDocument doc now).index.classes.map WrenClassSymbol.name) := by
  have hdiagof : (if isBuiltinModule imp.moduleName then (none : Option Diagnostic)
      else if anyExists oracle (resolveCandidates cfg doc.uri.fsPath imp.path) then none
      else some (mkUnresolvedDiag imp)) = some (mkUnresolvedDiag imp) := by
    simp [hnb, hfail]
  refine ⟨?_, rfl, rfl, ?_, ?_, ?_⟩
  · show mkUnresolvedDiag imp ∈
      (analyzeDocument doc now).diagnostics ++
        (analyzeDocument doc now).index.imports.filterMap (fun i =>
          if isBuiltinModule i.moduleName then none
          else if anyExists oracle (resolveCandidates cfg doc.uri.fsPath i.path) then none
          else some (mkUnresolvedDiag i))
    exact List.mem_append_right _ (List.mem_filterMap.mpr ⟨imp, hmem, hdiagof⟩)
  · show ((analyzeDocument doc now).diagnostics ++
        (analyzeDocument doc now).index.imports.filterMap (fun i =>
          if isBuiltinModule i.moduleName then none
          else if anyExists oracle (resolveCandidates cfg doc.uri.fsPath i.path) then none
          else some (mkUnresolvedDiag i))).countP
      (fun d => d.range == imp.range && d.code == "unresolved-import") = 1
    rw [List.countP_append]
    have h0 : ((analyzeDocument doc now).diagnostics).countP
        (fun d => d.range == imp.range && d.code == "unresolved-import") = 0 := by
      refine List.countP_eq_zero.mpr ?_
      intro d hd
      simp only [Bool.and_eq_true, beq_iff_eq]
      rintro ⟨-, h2⟩
      exact hclean d hd h2
    rw [h0, Nat.zero_add, countP_over_filterMap]
    have hcongr : ∀ i ∈ (analyzeDocument doc now).index.imports,
        ((((if isBuiltinModule i.moduleName then (none : Option Diagnostic)
          else if anyExists oracle (resolveCandidates cfg doc.uri.fsPath i.path) then none
          else some (mkUnresolvedDiag i))).map
            (fun d => d.range == imp.range && d.code == "unresolved-import")).getD false)
          = (i == imp) := by
      intro i hi
      by_cases hie : i = imp
      · subst hie
        simp [hnb, hfail, mkUnresolvedDiag]
      · have hir : i.range ≠ imp.range := fun h => hie (huniqr i hi h)
        cases hb : isBuiltinModule i.moduleName with
        | true => simp [hb, hie]
        | false =>
          cases ha : anyExists oracle (resolveCandidates cfg doc.uri.fsPath i.path) with
          | true => simp [hb, ha, hie]
          | false => simp [hb, ha, mkUnresolvedDiag, hir, hie]
    rw [countP_congr_eq _ _ _ hcongr]
    have : ((analyzeDocument doc now).index.imports).countP (fun i => i == imp)
        = ((analyzeDocument doc now).index.imports).count imp := rfl
    rw [this, honce]
  · have hmem2 : imp ∈ indexImports doc.module.statements := hmem
    rcases List.mem_filterMap.mp hmem2 with ⟨s, hs, hfs⟩
    cases s with
    | importStmt ptok vs =>
      dsimp only at hfs
      by_cases hraw : stripQuotes ptok.text = ""
      · rw [if_pos hraw] at hfs
        exact absurd hfs (by simp)
      · rw [if_neg hraw] at hfs
        injection hfs with h
        exact ⟨ptok, vs, hs, by rw [← h]⟩
    | varStmt a b c => exact absurd hfs (by simp)
    | blockStmt a => exact absurd hfs (by simp)
    | ifStmt a b c => exact absurd hfs (by simp)
    | whileStmt a b => exact absurd hfs (by simp)
    | forStmt a b c d => exact absurd hfs (by simp)
    | classStmt a b c d e g => exact absurd hfs (by simp)
    | returnStmt a => exact absurd hfs (by simp)
    | exprStmt a => exact absurd hfs (by simp)
  · intro nm fk ck lb rb ms hmem2
    have h1 : buildClassSymbol nm fk ck lb rb ms ∈ indexClasses doc.module.statements :=
      List.mem_filterMap.mpr ⟨_, hmem2, rfl⟩
    exact List.mem_map.mpr ⟨_, h1, rfl⟩

/-- Witness for C6 at a concrete document with one failing import of
`"m"` and one class `C`. -/
theorem getDiagnostics_unresolved_import_witness :
    (isBuiltinModule c6Imp.moduleName = false ∧
      c6Imp ∈ (analyzeDocument c6Doc 5).index.imports) ∧
    (getDiagnostics cfg8 (fun _ => false) (outToCached (analyzeDocument c6Doc 5))
        c6Doc.uri.fsPath).countP
      (fun d => d.range == c6Imp.range && d.code == "unresolved-import") = 1 :=
  ⟨⟨by decide, by decide⟩,
    (getDiagnostics_unresolved_import cfg8 (fun _ => false) c6Doc 5 c6Imp
      (by decide) (by decide) (by decide) (by decide) (by decide)
      (by decide)).2.2.2.1⟩


/-! ## Aggregate bucket membership -/

theorem jsGet_jsSet_self {α : Type} (l : List (String × α)) (k : String) (v : α) :
    jsGet (jsSet l k v) k = some v := by
  induction l with
  | nil => simp [jsGet, jsSet]
  | cons kv rest ih =>
    by_cases h : kv.1 = k
    · simp [jsSet, h, jsGet]
    · simp [jsSet, h, jsGet, ih]

theorem jsGet_jsSet_other {α : Type} (l : List (String × α)) (k k' : String)
    (v : α) (h : k' ≠ k) :
    jsGet (jsSet l k v) k' = jsGet l k' := by
  induction l with
  | nil => simp [jsGet, jsSet, Ne.symm h]
  | cons kv rest ih =>
    by_cases hkv : kv.1 = k
    · simp [jsSet, hkv, jsGet, Ne.symm h]
    · simp [jsSet, hkv, jsGet, ih]

theorem jsGet_mergeClass_isSome (classes : List (String × AggregatedClassIndex))
    (cls : WrenClassSymbol) (n : String) :
    (jsGet (mergeClass classes cls) n).isSome = true ↔
      (n = cls.name ∨ (jsGet classes n).isSome = true) := by
  by_cases h : n = cls.name
  · subst h
    simp [mergeClass, jsGet_jsSet_self]
  · unfold mergeClass
    rw [jsGet_jsSet_other _ _ _ _ h]
    simp [h]

theorem jsGet_classFold_isSome (vis : Option (List String))
    (cs : List WrenClassSymbol) :
    ∀ (acc : List (String × AggregatedClassIndex)) (n : String),
    (jsGet (cs.foldl (fun acc cls =>
        if hiddenBy vis cls.name then acc else mergeClass acc cls) acc) n).isSome
      = true ↔
      ((jsGet acc n).isSome = true ∨
        ∃ c ∈ cs, c.name = n ∧ hiddenBy vis n = false) := by
  induction cs with
  | nil => intro acc n; simp
  | cons c cs ih =>
    intro acc n
    rw [List.foldl_cons]
    by_cases hh : hiddenBy vis c.name = true
    · rw [if_pos hh, ih acc n]
      constructor
      · rintro (h | h)
        · exact Or.inl h
        · exact Or.inr (by rcases h with ⟨d, hd, h1, h2⟩; exact ⟨d, List.mem_cons_of_mem c hd, h1, h2⟩)
      · rintro (h | ⟨d, hd, h1, h2⟩)
        · exact Or.inl h
        · rcases List.mem_cons.mp hd with rfl | hd'
          · rw [h1] at hh; rw [hh] at h2; exact absurd h2 (by simp)
          · exact Or.inr ⟨d, hd', h1, h2⟩
    · rw [if_neg hh, ih (mergeClass acc c) n, jsGet_mergeClass_isSome]
      have hfalse : hiddenBy vis c.name = false := by
        cases hhh : hiddenBy vis c.name
        · rfl
        · exact absurd hhh hh
      constructor
      · rintro ((rfl | h) | h)
        · exact Or.inr ⟨c, List.mem_cons_self c cs, rfl, hfalse⟩
        · exact Or.inl h
        · exact Or.inr (by rcases h with ⟨d, hd, h1, h2⟩; exact ⟨d, List.mem_cons_of_mem c hd, h1, h2⟩)
      · rintro (h | ⟨d, hd, h1, h2⟩)
        · exact Or.inl (Or.inr h)
        · rcases List.mem_cons.mp hd with rfl | hd'
          · exact Or.inl (Or.inl h1.symm)
          · exact Or.inr ⟨d, hd', h1, h2⟩

theorem jsGet_mergeEntry_isSome (classes : List (String × AggregatedClassIndex))
    (e : IndexEntry) (n : String) :
    (jsGet (mergeEntry classes e) n).isSome = true ↔
      ((jsGet classes n).isSome = true ∨
        ∃ c ∈ e.classes, c.name = n ∧ hiddenBy e.visibleNames n = false) :=
  jsGet_classFold_isSome e.visibleNames e.classes classes n

theorem jsGet_entryFold_isSome (entries : List IndexEntry) :
    ∀ (acc : List (String × AggregatedClassIndex)) (n : String),
    (jsGet (entries.foldl mergeEntry acc) n).isSome = true ↔
      ((jsGet acc n).isSome = true ∨
        ∃ e ∈ entries, ∃ c ∈ e.classes, c.name = n ∧
          hiddenBy e.visibleNames n = false) := by
  induction entries with
  | nil => intro acc n; simp
  | cons e es ih =>
    intro acc n
    rw [List.foldl_cons, ih (mergeEntry acc e) n, jsGet_mergeEntry_isSome]
    constructor
    · rintro ((h | h) | h)
      · exact Or.inl h
      · exact Or.inr ⟨e, List.mem_cons_self e es, h⟩
      · exact Or.inr (by rcases h with ⟨d, hd, hrest⟩; exact ⟨d, List.mem_cons_of_mem e hd, hrest⟩)
    · rintro (h | ⟨d, hd, hrest⟩)
      · exact Or.inl (Or.inl h)
      · rcases List.mem_cons.mp hd with rfl | hd'
        · exact Or.inl (Or.inr hrest)
        · exact Or.inr ⟨d, hd', hrest⟩

theorem jsGet_buildAggregate_isSome (entries : List IndexEntry) (n : String) :
    (jsGet (buildAggregate entries) n).isSome = true ↔
      ∃ e ∈ entries, ∃ c ∈ e.classes, c.name = n ∧
        hiddenBy e.visibleNames n = false := by
  rw [buildAggregate, jsGet_entryFold_isSome]
  simp [jsGet]

theorem core_class_names : CORE_CLASSES.map WrenClassSymbol.name = coreClassNames := rfl

/-! ## Claim C3: selective versus open imports -/

set_option maxHeartbeats 1600000 in
/-- Claim C3: in a workspace whose root imports module `m` once, the
aggregate has a bucket for a non-core class name `n` exactly when `m`
declares a class named `n` that passes the import's visibility filter:
under `import "m" for X` only listed names pass (`hiddenBy` blocks the
rest), and under an unrestricted import every declared class passes. -/
theorem selective_import_filters_aggregate (cs : List WrenClassSymbol)
    (vis : Option (List String)) (n : String) (hn : n ∉ coreClassNames) :
    ∃ agg, getWorkspaceAggregateFuel (mCfg cs) (mRoot [mImport vis]) 3 = some agg ∧
      ((jsGet agg n).isSome = true ↔
        ∃ c ∈ cs, c.name = n ∧ hiddenBy vis n = false) := by
  have hrun : collectEntriesFuel (mCfg cs) (mRoot [mImport vis]) 3 =
      some ⟨["m.wren", "r.wren"], [],
        [⟨CORE_CLASSES, none⟩, ⟨[], none⟩, ⟨cs, vis⟩], ["r.wren", "m.wren"]⟩ := rfl
  refine ⟨buildAggregate [⟨CORE_CLASSES, none⟩, ⟨[], none⟩, ⟨cs, vis⟩], ?_, ?_⟩
  · show (collectEntriesFuel (mCfg cs) (mRoot [mImport vis]) 3).map
      (fun st => buildAggregate st.results) = _
    rw [hrun]
    rfl
  · rw [jsGet_buildAggregate_isSome]
    constructor
    · rintro ⟨e, he, c, hc, hcn, hh⟩
      simp only [List.mem_cons, List.not_mem_nil, or_false] at he
      rcases he with rfl | rfl | rfl
      · exact absurd (core_class_names ▸ List.mem_map.mpr ⟨c, hc, hcn⟩) hn
      · exact absurd hc (List.not_mem_nil c)
      · exact ⟨c, hc, hcn, hh⟩
    · rintro ⟨c, hc, hcn, hh⟩
      exact ⟨⟨cs, vis⟩, by simp, c, hc, hcn, hh⟩

/-- Witness for C3: class `Y` of a module imported with `for X` is absent
from the aggregate, while the same query under an unrestricted import
reports it present. -/
theorem selective_import_filters_aggregate_witness :
    ("Y" ∉ coreClassNames ∧ hiddenBy (some ["X"]) "Y" = true) ∧
    (∃ agg, getWorkspaceAggregateFuel (mCfg [c3X, c3Y])
        (mRoot [mImport (some ["X"])]) 3 = some agg ∧
      ((jsGet agg "Y").isSome = true ↔
        ∃ c ∈ [c3X, c3Y], c.name = "Y" ∧ hiddenBy (some ["X"]) "Y" = false)) :=
  ⟨⟨by decide, by decide⟩,
    selective_import_filters_aggregate [c3X, c3Y] (some ["X"]) "Y" (by decide)⟩


/-! ## Claim C9: duplicate imports of one module -/

set_option maxHeartbeats 2000000 in
/-- Claim C9: when the root reaches module `m` through two imports, the
worklist (a LIFO stack) pops the most recently pushed entry first — here
the one carrying the second import's visibility `visB` — and only that
entry contributes `m`'s classes, under its own restriction; the other
entry is discarded by the visited-set check (`m.wren` appears once in the
contribution order), so the first-popped entry's visibility alone decides
the aggregate: a later-popped unrestricted import cannot widen it and a
later-popped selective import cannot narrow it. -/
theorem duplicate_import_first_popped_wins (cs : List WrenClassSymbol)
    (visA visB : Option (List String)) (n : String) (hn : n ∉ coreClassNames) :
    ∃ st, collectEntriesFuel (mCfg cs) (mRoot [mImport visA, mImport visB]) 4
        = some st ∧
      st.contrib = ["r.wren", "m.wren"] ∧
      st.results = [⟨CORE_CLASSES, none⟩, ⟨[], none⟩, ⟨cs, visB⟩] ∧
      ((jsGet (buildAggregate st.results) n).isSome = true ↔
        ∃ c ∈ cs, c.name = n ∧ hiddenBy visB n = false) := by
  have hrun : collectEntriesFuel (mCfg cs) (mRoot [mImport visA, mImport visB]) 4 =
      some ⟨["m.wren", "r.wren"], [],
        [⟨CORE_CLASSES, none⟩, ⟨[], none⟩, ⟨cs, visB⟩], ["r.wren", "m.wren"]⟩ := rfl
  refine ⟨_, hrun, rfl, rfl, ?_⟩
  rw [jsGet_buildAggregate_isSome]
  constructor
  · rintro ⟨e, he, c, hc, hcn, hh⟩
    simp only [List.mem_cons, List.not_mem_nil, or_false] at he
    rcases he with rfl | rfl | rfl
    · exact absurd (core_class_names ▸ List.mem_map.mpr ⟨c, hc, hcn⟩) hn
    · exact absurd hc (List.not_mem_nil c)
    · exact ⟨c, hc, hcn, hh⟩
  · rintro ⟨c, hc, hcn, hh⟩
    exact ⟨⟨cs, visB⟩, by simp, c, hc, hcn, hh⟩

/-- Witness for C9: under imports `for X` then `for Y` of the same
module, the second (first-popped) restriction `for Y` governs: class `X`
is absent even though the first import listed it. -/
theorem duplicate_import_first_popped_wins_witness :
    ("X" ∉ coreClassNames ∧ hiddenBy (some ["Y"]) "X" = true) ∧
    (∃ st, collectEntriesFuel (mCfg [c3X, c3Y])
        (mRoot [mImport (some ["X"]), mImport (some ["Y"])]) 4 = some st ∧
      st.contrib = ["r.wren", "m.wren"] ∧
      st.results = [⟨CORE_CLASSES, none⟩, ⟨[], none⟩, ⟨[c3X, c3Y], some ["Y"]⟩] ∧
      ((jsGet (buildAggregate st.results) "X").isSome = true ↔
        ∃ c ∈ [c3X, c3Y], c.name = "X" ∧ hiddenBy (some ["Y"]) "X" = false)) :=
  ⟨⟨by decide, by decide⟩,
    duplicate_import_first_popped_wins [c3X, c3Y] (some ["X"]) (some ["Y"]) "X"
      (by decide)⟩


/-! ## Claim C1: traversal termination and single contribution -/

theorem jsGet_some_mem {α : Type} (l : List (String × α)) (k : String) (v : α)
    (h : jsGet l k = some v) : (k, v) ∈ l := by
  induction l with
  | nil => simp [jsGet] at h
  | cons kv rest ih =>
    by_cases hk : kv.1 = k
    · rw [jsGet, if_pos hk] at h
      injection h with h2
      subst hk
      subst h2
      exact List.mem_cons_self kv rest
    · rw [jsGet, if_neg hk] at h
      exact List.mem_cons_of_mem _ (ih h)

theorem candFold_mem (cfg : ServiceCfg) (visited : List String)
    (vis : Option (List String)) :
    ∀ (cands : List String) (pacc : List PendingEntry) (e : PendingEntry),
    (e ∈ cands.foldl (fun pacc candidate =>
        if candidate ∈ visited then pacc
        else
          match loadIndex cfg candidate with
          | some idx => pacc ++ [⟨idx, vis⟩]
          | none => pacc) pacc ↔
      (e ∈ pacc ∨ ∃ c ∈ cands, ¬ c ∈ visited ∧
        loadIndex cfg c = some e.index ∧ e.visibleNames = vis)) := by
  intro cands
  induction cands with
  | nil => intro pacc e; simp
  | cons c cs ih =>
    intro pacc e
    rw [List.foldl_cons]
    by_cases hc : c ∈ visited
    · rw [if_pos hc, ih pacc e]
      constructor
      · rintro (h | ⟨d, hd, h1, h2, h3⟩)
        · exact Or.inl h
        · exact Or.inr ⟨d, List.mem_cons_of_mem c hd, h1, h2, h3⟩
      · rintro (h | ⟨d, hd, h1, h2, h3⟩)
        · exact Or.inl h
        · rcases List.mem_cons.mp hd with rfl | hd'
          · exact absurd hc h1
          · exact Or.inr ⟨d, hd', h1, h2, h3⟩
    · rw [if_neg hc]
      cases hl : loadIndex cfg c with
      | none =>
        rw [ih pacc e]
        constructor
        · rintro (h | ⟨d, hd, h1, h2, h3⟩)
          · exact Or.inl h
          · exact Or.inr ⟨d, List.mem_cons_of_mem c hd, h1, h2, h3⟩
        · rintro (h | ⟨d, hd, h1, h2, h3⟩)
          · exact Or.inl h
          · rcases List.mem_cons.mp hd with rfl | hd'
            · rw [hl] at h2; exact absurd h2 (by simp)
            · exact Or.inr ⟨d, hd', h1, h2, h3⟩
      | some idx =>
        dsimp only
        rw [ih (pacc ++ [({ index := idx, visibleNames := vis } : PendingEntry)]) e]
        constructor
        · rintro (h | ⟨d, hd, h1, h2, h3⟩)
          · rcases List.mem_append.mp h with h' | h'
            · exact Or.inl h'
            · have he : e = ⟨idx, vis⟩ := List.mem_singleton.mp h'
              refine Or.inr ⟨c, List.mem_cons_self c cs, hc, ?_, ?_⟩
              · rw [he, hl]
              · rw [he]
          · exact Or.inr ⟨d, List.mem_cons_of_mem c hd, h1, h2, h3⟩
        · rintro (h | ⟨d, hd, h1, h2, h3⟩)
          · exact Or.inl (List.mem_append_left _ h)
          · rcases List.mem_cons.mp hd with rfl | hd'
            · refine Or.inl (List.mem_append_right _ ?_)
              rw [hl] at h2
              injection h2 with h2'
              have : e = ⟨e.index, e.visibleNames⟩ := rfl
              rw [List.mem_singleton, this, ← h2', h3]
            · exact Or.inr ⟨d, hd', h1, h2, h3⟩

theorem importStep_snd_mem (cfg : ServiceCfg) (visited : List String)
    (fsPath : String) (acc : List IndexEntry × List PendingEntry)
    (imp : WrenImportSymbol) (e : PendingEntry) :
    e ∈ (importStep cfg visited fsPath acc imp).2 ↔
      (e ∈ acc.2 ∨ (isBuiltinModule imp.moduleName = false ∧
        ∃ c ∈ resolveCandidates cfg fsPath imp.path, ¬ c ∈ visited ∧
          loadIndex cfg c = some e.index ∧ e.visibleNames = imp.vars)) := by
  unfold importStep
  by_cases hb : isBuiltinModule imp.moduleName
  · cases hgb : getBuiltinClasses imp.moduleName with
    | none => simp [hb, hgb]
    | some bc => simp [hb, hgb]
  · have hb' : isBuiltinModule imp.moduleName = false := by
      cases h : isBuiltinModule imp.moduleName
      · rfl
      · exact absurd h hb
    rw [if_neg hb]
    dsimp only
    rw [candFold_mem cfg visited imp.vars (resolveCandidates cfg fsPath imp.path) acc.2 e]
    simp [hb']

theorem importFold_snd_mem (cfg : ServiceCfg) (visited : List String)
    (fsPath : String) :
    ∀ (imps : List WrenImportSymbol) (acc : List IndexEntry × List PendingEntry)
      (e : PendingEntry),
    e ∈ (imps.foldl (importStep cfg visited fsPath) acc).2 ↔
      (e ∈ acc.2 ∨ ∃ imp ∈ imps, isBuiltinModule imp.moduleName = false ∧
        ∃ c ∈ resolveCandidates cfg fsPath imp.path, ¬ c ∈ visited ∧
          loadIndex cfg c = some e.index ∧ e.visibleNames = imp.vars) := by
  intro imps
  induction imps with
  | nil => intro acc e; simp
  | cons imp imps ih =>
    intro acc e
    rw [List.foldl_cons, ih (importStep cfg visited fsPath acc imp) e,
      importStep_snd_mem]
    constructor
    · rintro ((h | h) | ⟨d, hd, hrest⟩)
      · exact Or.inl h
      · exact Or.inr ⟨imp, List.mem_cons_self imp imps, h⟩
      · exact Or.inr ⟨d, List.mem_cons_of_mem imp hd, hrest⟩
    · rintro (h | ⟨d, hd, hrest⟩)
      · exact Or.inl (Or.inl h)
      · rcases List.mem_cons.mp hd with rfl | hd'
        · exact Or.inl (Or.inr hrest)
        · exact Or.inr ⟨d, hd', hrest⟩

theorem processImports_snd_mem (cfg : ServiceCfg) (visited : List String)
    (fsPath : String) (imps : List WrenImportSymbol) (e : PendingEntry) :
    e ∈ (processImports cfg visited fsPath imps).2 ↔
      ∃ imp ∈ imps, isBuiltinModule imp.moduleName = false ∧
        ∃ c ∈ resolveCandidates cfg fsPath imp.path, ¬ c ∈ visited ∧
          loadIndex cfg c = some e.index ∧ e.visibleNames = imp.vars := by
  unfold processImports
  rw [importFold_snd_mem cfg visited fsPath imps ([], []) e]
  simp

theorem stepEntry_skip (cfg : ServiceCfg) (st : TravState) (e : PendingEntry)
    (rest : List PendingEntry) (hv : pathOf e ∈ st.visited) :
    stepEntry cfg st e rest = { st with pending := rest } := by
  have hv' : e.index.uri.fsPath ∈ st.visited := hv
  unfold stepEntry
  rw [if_pos hv']

theorem stepEntry_expand (cfg : ServiceCfg) (st : TravState) (e : PendingEntry)
    (rest : List PendingEntry) (hv : ¬ pathOf e ∈ st.visited) :
    stepEntry cfg st e rest =
      { visited := pathOf e :: st.visited,
        pending := (processImports cfg (pathOf e :: st.visited) (pathOf e)
          e.index.imports).2.reverse ++ rest,
        results := st.results ++ ⟨e.index.classes, e.visibleNames⟩ ::
          (processImports cfg (pathOf e :: st.visited) (pathOf e)
            e.index.imports).1,
        contrib := st.contrib ++ [pathOf e] } := by
  have hv' : ¬ e.index.uri.fsPath ∈ st.visited := hv
  unfold stepEntry
  rw [if_neg hv']
  rfl

theorem remaining_pos (cfg : ServiceCfg) (root : WrenFileIndex) (st : TravState)
    (a : String) (ha : a ∈ uSet cfg root) (hv : ¬ a ∈ st.visited) :
    0 < remaining cfg root st := by
  unfold remaining
  exact List.length_pos_of_mem (List.mem_filter.mpr ⟨ha, by simp [hv]⟩)

theorem filter_notmem_mono (v : List String) (a : String) :
    ∀ (ys : List String),
    (ys.filter (fun p => decide (¬ p ∈ (a :: v)))).length ≤
      (ys.filter (fun p => decide (¬ p ∈ v))).length := by
  intro ys
  induction ys with
  | nil => simp
  | cons z zs ih =>
    rw [List.filter_cons, List.filter_cons]
    by_cases hz : z ∈ v
    · have hza : z ∈ a :: v := List.mem_cons_of_mem a hz
      simpa [hz, hza] using ih
    · by_cases hza : z ∈ a :: v
      · simpa [hz, hza] using Nat.le_trans ih (Nat.le_succ _)
      · simpa [hz, hza] using Nat.succ_le_succ ih

theorem filter_notmem_cons_lt (l : List String) (v : List String) (a : String)
    (ha : a ∈ l) (hv : ¬ a ∈ v) :
    (l.filter (fun p => decide (¬ p ∈ (a :: v)))).length <
      (l.filter (fun p => decide (¬ p ∈ v))).length := by
  induction l with
  | nil => exact absurd ha (List.not_mem_nil a)
  | cons x xs ih =>
    rw [List.filter_cons, List.filter_cons]
    by_cases hx : x = a
    · subst hx
      have h1 : x ∈ x :: v := List.mem_cons_self x v
      simpa [h1, hv] using Nat.lt_succ_of_le (filter_notmem_mono v x xs)
    · have hmem : a ∈ xs := by
        rcases List.mem_cons.mp ha with h | h
        · exact absurd h.symm hx
        · exact h
      by_cases hxv : x ∈ v
      · have hxav : x ∈ a :: v := List.mem_cons_of_mem a hxv
        simpa [hxv, hxav] using ih hmem
      · have hxav : ¬ x ∈ a :: v := by
          intro h
          rcases List.mem_cons.mp h with h' | h'
          · exact hx h'
          · exact hxv h'
        simpa [hxv, hxav] using Nat.succ_lt_succ (ih hmem)

theorem loopFuel_nil (cfg : ServiceCfg) (n : Nat) (st : TravState)
    (hp : st.pending = []) : loopFuel cfg n st = some st := by
  rw [loopFuel, hp]

theorem loopFuel_cons (cfg : ServiceCfg) (n : Nat) (st : TravState)
    (e : PendingEntry) (rest : List PendingEntry) (hp : st.pending = e :: rest) :
    loopFuel cfg (n + 1) st = loopFuel cfg n (stepEntry cfg st e rest) := by
  rw [loopFuel, hp]

theorem initState_inv (cfg : ServiceCfg) (root : WrenFileIndex) :
    Inv cfg root (initState root) := by
  unfold Inv initState
  refine ⟨List.nodup_nil, rfl, ?_, ?_, ?_, ?_, ?_⟩
  · intro p hp; exact absurd hp (List.not_mem_nil p)
  · intro e he
    have h := List.mem_singleton.mp he
    rw [h]
    exact List.mem_cons_self _ _
  · intro e he
    have h := List.mem_singleton.mp he
    rw [h]
    exact Or.inr ⟨rfl, rfl⟩
  · exact Or.inr ⟨rfl, rfl⟩
  · intro p hp; exact absurd hp (List.not_mem_nil p)


theorem stepEntry_preserves_inv (cfg : ServiceCfg) (root : WrenFileIndex)
    (hwf : WellFormedFs cfg) (st : TravState) (e : PendingEntry)
    (rest : List PendingEntry) (hp : st.pending = e :: rest)
    (hinv : Inv cfg root st) : Inv cfg root (stepEntry cfg st e rest) := by
  unfold Inv at hinv
  obtain ⟨hnd, hcon, hvU, hpU, hpL, hroot, hsucc⟩ := hinv
  have hein : e ∈ st.pending := hp ▸ List.mem_cons_self e rest
  have hrest : ∀ x ∈ rest, x ∈ st.pending :=
    fun x hx => hp ▸ List.mem_cons_of_mem e hx
  by_cases hv : pathOf e ∈ st.visited
  · rw [stepEntry_skip cfg st e rest hv]
    unfold Inv
    refine ⟨hnd, hcon, hvU, ?_, ?_, ?_, ?_⟩
    · intro x hx; exact hpU x (hrest x hx)
    · intro x hx; exact hpL x (hrest x hx)
    · rcases hroot with h | ⟨h1, _⟩
      · exact Or.inl h
      · rw [h1] at hv; exact absurd hv (List.not_mem_nil _)
    · intro p hpv c hc
      rcases hsucc p hpv c hc with h | h
      · exact Or.inl h
      · rw [hp, List.map_cons] at h
        rcases List.mem_cons.mp h with h' | h'
        · exact Or.inl (h' ▸ hv)
        · exact Or.inr h'
  · rw [stepEntry_expand cfg st e rest hv]
    have hpe : pathOf e ∈ uSet cfg root := hpU e hein
    unfold Inv
    refine ⟨List.nodup_cons.mpr ⟨hv, hnd⟩, ?_, ?_, ?_, ?_, ?_, ?_⟩
    · show st.contrib ++ [pathOf e] = (pathOf e :: st.visited).reverse
      rw [List.reverse_cons, hcon]
    · intro p hpv
      rcases List.mem_cons.mp hpv with rfl | h
      · exact hpe
      · exact hvU p h
    · intro x hx
      rcases List.mem_append.mp hx with h | h
      · have h2 := List.mem_reverse.mp h
        rw [processImports_snd_mem] at h2
        obtain ⟨imp, _, _, c, _, _, hload, _⟩ := h2
        have hkv := jsGet_some_mem _ _ _ hload
        have hc : x.index.uri.fsPath = c := hwf (c, x.index) hkv
        show pathOf x ∈ uSet cfg root
        unfold pathOf
        rw [hc]
        exact List.mem_cons_of_mem _ (List.mem_map.mpr ⟨(c, x.index), hkv, rfl⟩)
      · exact hpU x (hrest x h)
    · intro x hx
      rcases List.mem_append.mp hx with h | h
      · have h2 := List.mem_reverse.mp h
        rw [processImports_snd_mem] at h2
        obtain ⟨imp, _, _, c, _, _, hload, _⟩ := h2
        have hc : x.index.uri.fsPath = c := hwf (c, x.index) (jsGet_some_mem _ _ _ hload)
        left
        show loadIndex cfg (pathOf x) = some x.index
        unfold pathOf
        rw [hc]
        exact hload
      · exact hpL x (hrest x h)
    · left
      rcases hroot with h | ⟨_, h2⟩
      · exact List.mem_cons_of_mem _ h
      · have h3 : e :: rest = [(⟨root, none⟩ : PendingEntry)] := by rw [← hp, h2]
        have he : e = ⟨root, none⟩ := (List.cons_eq_cons.mp h3).1
        rw [he]
        exact List.mem_cons_self _ _
    · intro p hpv c hc
      rcases List.mem_cons.mp hpv with rfl | hold
      · have hidx : indexAt cfg root (pathOf e) = some e.index := by
          rcases hroot with h | ⟨_, h2⟩
          · have hne : pathOf e ≠ root.uri.fsPath := fun heq => hv (heq ▸ h)
            rcases hpL e hein with hl | ⟨_, hpath⟩
            · unfold indexAt
              rw [if_neg hne]
              exact hl
            · exact absurd hpath hne
          · have h3 : e :: rest = [(⟨root, none⟩ : PendingEntry)] := by rw [← hp, h2]
            have he : e = ⟨root, none⟩ := (List.cons_eq_cons.mp h3).1
            rw [he]
            simp [indexAt, pathOf]
        obtain ⟨idx, imp, hidx2, himp, hnb, hcand, hload⟩ := hc
        rw [hidx] at hidx2
        have hii : idx = e.index := (Option.some.inj hidx2).symm
        subst hii
        by_cases hcv : c ∈ pathOf e :: st.visited
        · exact Or.inl hcv
        · right
          obtain ⟨cidx, hcidx⟩ := Option.isSome_iff_exists.mp hload
          have hcpath : cidx.uri.fsPath = c := hwf (c, cidx) (jsGet_some_mem _ _ _ hcidx)
          have hpush : (⟨cidx, imp.vars⟩ : PendingEntry) ∈
              (processImports cfg (pathOf e :: st.visited) (pathOf e)
                e.index.imports).2 := by
            rw [processImports_snd_mem]
            exact ⟨imp, himp, hnb, c, hcand, hcv, hcidx, rfl⟩
          rw [List.map_append]
          apply List.mem_append_left
          exact List.mem_map.mpr ⟨⟨cidx, imp.vars⟩, List.mem_reverse.mpr hpush, hcpath⟩
      · rcases hsucc p hold c hc with h | h
        · exact Or.inl (List.mem_cons_of_mem _ h)
        · rw [hp, List.map_cons] at h
          rcases List.mem_cons.mp h with rfl | h'
          · exact Or.inl (List.mem_cons_self _ _)
          · right
            rw [List.map_append]
            exact List.mem_append_right _ h'


theorem loop_reaches_empty (cfg : ServiceCfg) (root : WrenFileIndex)
    (hwf : WellFormedFs cfg) :
    ∀ (k m : Nat) (st : TravState), Inv cfg root st →
      remaining cfg root st ≤ k → st.pending.length ≤ m →
      ∃ n st', loopFuel cfg n st = some st' ∧ st'.pending = [] ∧
        Inv cfg root st' := by
  intro k
  induction k with
  | zero =>
    intro m
    induction m with
    | zero =>
      intro st hinv _ hm
      have hp : st.pending = [] := List.length_eq_zero.mp (Nat.le_zero.mp hm)
      exact ⟨0, st, loopFuel_nil cfg 0 st hp, hp, hinv⟩
    | succ m ihm =>
      intro st hinv hk hm
      cases hp : st.pending with
      | nil => exact ⟨0, st, loopFuel_nil cfg 0 st hp, hp, hinv⟩
      | cons e rest =>
        by_cases hv : pathOf e ∈ st.visited
        · have hinv' := stepEntry_preserves_inv cfg root hwf st e rest hp hinv
          rw [stepEntry_skip cfg st e rest hv] at hinv'
          have hk' : remaining cfg root { st with pending := rest } ≤ 0 := hk
          have hm' : rest.length ≤ m := by
            rw [hp, List.length_cons] at hm
            exact Nat.le_of_succ_le_succ hm
          obtain ⟨n, st', h1, h2, h3⟩ := ihm { st with pending := rest } hinv' hk' hm'
          refine ⟨n + 1, st', ?_, h2, h3⟩
          rw [loopFuel_cons cfg n st e rest hp, stepEntry_skip cfg st e rest hv]
          exact h1
        · exfalso
          have hpe : pathOf e ∈ uSet cfg root := by
            unfold Inv at hinv
            exact hinv.2.2.2.1 e (hp ▸ List.mem_cons_self e rest)
          have hpos := remaining_pos cfg root st (pathOf e) hpe hv
          omega
  | succ k ihk =>
    intro m
    induction m with
    | zero =>
      intro st hinv _ hm
      have hp : st.pending = [] := List.length_eq_zero.mp (Nat.le_zero.mp hm)
      exact ⟨0, st, loopFuel_nil cfg 0 st hp, hp, hinv⟩
    | succ m ihm =>
      intro st hinv hk hm
      cases hp : st.pending with
      | nil => exact ⟨0, st, loopFuel_nil cfg 0 st hp, hp, hinv⟩
      | cons e rest =>
        by_cases hv : pathOf e ∈ st.visited
        · have hinv' := stepEntry_preserves_inv cfg root hwf st e rest hp hinv
          rw [stepEntry_skip cfg st e rest hv] at hinv'
          have hk' : remaining cfg root { st with pending := rest } ≤ k + 1 := hk
          have hm' : rest.length ≤ m := by
            rw [hp, List.length_cons] at hm
            exact Nat.le_of_succ_le_succ hm
          obtain ⟨n, st', h1, h2, h3⟩ := ihm { st with pending := rest } hinv' hk' hm'
          refine ⟨n + 1, st', ?_, h2, h3⟩
          rw [loopFuel_cons cfg n st e rest hp, stepEntry_skip cfg st e rest hv]
          exact h1
        · have hinv' := stepEntry_preserves_inv cfg root hwf st e rest hp hinv
          have hpe : pathOf e ∈ uSet cfg root := by
            unfold Inv at hinv
            exact hinv.2.2.2.1 e (hp ▸ List.mem_cons_self e rest)
          have hrem : remaining cfg root (stepEntry cfg st e rest) ≤ k := by
            rw [stepEntry_expand cfg st e rest hv]
            unfold remaining at hk ⊢
            dsimp only
            have hlt := filter_notmem_cons_lt (uSet cfg root) st.visited
              (pathOf e) hpe hv
            omega
          obtain ⟨n, st', h1, h2, h3⟩ := ihk (stepEntry cfg st e rest).pending.length
            (stepEntry cfg st e rest) hinv' hrem (Nat.le_refl _)
          refine ⟨n + 1, st', ?_, h2, h3⟩
          rw [loopFuel_cons cfg n st e rest hp]
          exact h1

/-- Claim C1: for every modelled import graph — including cyclic ones —
the worklist traversal of `collectWorkspaceEntries` terminates (some
finite fuel reaches an empty worklist), and the canonical path of every
file reachable through the import graph is contributed to the results
exactly once: the contribution order is duplicate-free, because the
visited set is checked before a popped entry is expanded. -/
theorem traversal_terminates_contributes_once (cfg : ServiceCfg)
    (root : WrenFileIndex) (hwf : WellFormedFs cfg) :
    ∃ n st, collectEntriesFuel cfg root n = some st ∧ st.pending = [] ∧
      st.contrib.Nodup ∧
      ∀ p, ReachPath cfg root p → st.contrib.count p = 1 := by
  obtain ⟨n, st, h1, h2, hinv⟩ := loop_reaches_empty cfg root hwf
    (remaining cfg root (initState root)) (initState root).pending.length
    (initState root) (initState_inv cfg root) (Nat.le_refl _) (Nat.le_refl _)
  unfold Inv at hinv
  obtain ⟨hnd, hcon, _, _, _, hroot, hsucc⟩ := hinv
  have hrootv : root.uri.fsPath ∈ st.visited := by
    rcases hroot with h | ⟨_, h2'⟩
    · exact h
    · rw [h2] at h2'
      exact List.noConfusion h2'
  have hvis : ∀ p, ReachPath cfg root p → p ∈ st.visited := by
    intro p hr
    induction hr with
    | root => exact hrootv
    | step hr' hidx himp hnb hc' hload ih =>
      rcases hsucc _ ih _ ⟨_, _, hidx, himp, hnb, hc', hload⟩ with h | h
      · exact h
      · rw [h2] at h
        exact absurd h (by simp)
  refine ⟨n, st, h1, h2, ?_, ?_⟩
  · rw [hcon]
    exact List.nodup_reverse.mpr hnd
  · intro p hr
    rw [hcon, List.count_reverse]
    exact List.count_eq_one_of_mem hnd (hvis p hr)

/-- Witness for C1 on the cyclic two-file workspace (`a.wren` and
`b.wren` import each other). -/
theorem traversal_terminates_contributes_once_witness :
    WellFormedFs cycCfg ∧
    ∃ n st, collectEntriesFuel cycCfg cycIndexA n = some st ∧ st.pending = [] ∧
      st.contrib.Nodup ∧
      ∀ p, ReachPath cycCfg cycIndexA p → st.contrib.count p = 1 :=
  ⟨by unfold WellFormedFs; decide,
    traversal_terminates_contributes_once cycCfg cycIndexA
      (by unfold WellFormedFs; decide)⟩

end Wren
